import Mathlib

/-!
Verification of the QuickCrypt file-encryption tool (src/main.rs).

The program is an iced GUI around four core operations:
  * encrypt_file: hex-decode key and IV, build an AES-256-CBC cipher with
    PKCS#7 padding, read the file, encrypt, write to file_path + ".enc";
  * decrypt_file: same decoding, decrypt, strip padding, write to a derived
    output path (trim_end_matches(".enc") then split at the last dot);
  * generate_random_key / generate_random_iv: hex-encode 32 / 16 random bytes;
  * update: the message dispatcher over the application state.

This file gives a shallow embedding of those operations.  Bytes are `Fin 256`,
byte sequences are `List Byte`, the file system is a partial map from path
strings to byte contents, and randomness and dialog results are passed as
explicit inputs.  The AES-256 block cipher, CBC chaining, PKCS#7 padding and
the hex codec are implemented by the `aes`, `block_modes` and `hex` crates,
whose sources are not part of this repository; they are modelled here from the
spec (a 256-bit-key, 128-bit-block CBC cipher with PKCS#7 padding, per
FIPS-197, and a standard hexadecimal codec) and the model is stated next to
each definition.
-/

set_option maxRecDepth 100000
set_option maxHeartbeats 2000000

abbrev Byte := Fin 256

theorem byte_xor_lt (a b : Nat) (ha : a < 256) (hb : b < 256) : a ^^^ b < 256 := by
  have h : (256 : Nat) = 2 ^ 8 := by norm_num
  rw [h] at ha hb ⊢
  exact Nat.xor_lt_two_pow ha hb

/-- Byte-wise xor, the `^` of the Rust u8 type. -/
def bxor (a b : Byte) : Byte := ⟨a.val ^^^ b.val, byte_xor_lt a.val b.val a.isLt b.isLt⟩

theorem bxor_val (a b : Byte) : (bxor a b).val = a.val ^^^ b.val := rfl

theorem byte_val_zero : (0 : Byte).val = 0 := rfl

theorem bxor_comm (a b : Byte) : bxor a b = bxor b a := by
  apply Fin.ext
  simp [bxor_val, Nat.xor_comm]

theorem bxor_assoc (a b c : Byte) : bxor (bxor a b) c = bxor a (bxor b c) := by
  apply Fin.ext
  simp [bxor_val, Nat.xor_assoc]

theorem bxor_left_comm (a b c : Byte) : bxor a (bxor b c) = bxor b (bxor a c) := by
  apply Fin.ext
  simp [bxor_val]
  rw [← Nat.xor_assoc, Nat.xor_comm a.val b.val, Nat.xor_assoc]

theorem bxor_self (a : Byte) : bxor a a = 0 := by
  apply Fin.ext
  simp [bxor_val, Nat.xor_self, byte_val_zero]

theorem bxor_zero (a : Byte) : bxor a 0 = a := by
  apply Fin.ext
  simp [bxor_val, byte_val_zero]

theorem zero_bxor (a : Byte) : bxor 0 a = a := by
  apply Fin.ext
  simp [bxor_val, byte_val_zero]

theorem bxor_cancel_right (a b : Byte) : bxor (bxor b a) a = b := by
  rw [bxor_assoc, bxor_self, bxor_zero]

theorem bxor_cancel_left (a b : Byte) : bxor a (bxor a b) = b := by
  rw [← bxor_assoc, bxor_self, zero_bxor]

theorem bxor_interchange (a b c d : Byte) :
    bxor (bxor a b) (bxor c d) = bxor (bxor a c) (bxor b d) := by
  simp [bxor_assoc, bxor_left_comm]

/-- Multiplication by x in GF(2^8) with the AES reduction polynomial 0x11b.
Modelled from the spec: the block cipher is the 256-bit-key, 128-bit-block
cipher of FIPS-197 (the `aes` crate); this is its field doubling step. -/
def xtime (b : Byte) : Byte :=
  ⟨((2 * b.val) % 256) ^^^ (if b.val < 128 then 0 else 27), by
    apply byte_xor_lt
    · exact Nat.mod_lt _ (by omega)
    · split <;> omega⟩

theorem two_mul_xor (x y : Nat) : 2 * (x ^^^ y) = (2 * x) ^^^ (2 * y) := by
  apply Nat.eq_of_testBit_eq
  intro i
  cases i with
  | zero =>
    simp [Nat.testBit_zero, Nat.mul_mod_right, Nat.testBit_xor]
  | succ i =>
    rw [Nat.testBit_succ, Nat.testBit_xor, Nat.testBit_succ, Nat.testBit_succ,
      Nat.mul_div_cancel_left _ (by omega : 0 < 2), Nat.mul_div_cancel_left _ (by omega : 0 < 2),
      Nat.mul_div_cancel_left _ (by omega : 0 < 2), ← Nat.testBit_xor]

theorem xor_mod_two_pow (x y n : Nat) : (x ^^^ y) % 2 ^ n = (x % 2 ^ n) ^^^ (y % 2 ^ n) := by
  apply Nat.eq_of_testBit_eq
  intro i
  simp only [Nat.testBit_mod_two_pow, Nat.testBit_xor]
  cases h : decide (i < n) <;> simp

theorem testBit7_of_ge (z : Nat) (hlo : 128 ≤ z) (hhi : z < 256) : z.testBit 7 = true := by
  rw [Nat.testBit_to_div_mod]
  simp only [decide_eq_true_eq]
  omega

theorem testBit7_of_lt (z : Nat) (h : z < 128) : z.testBit 7 = false := by
  have : z < 2 ^ 7 := by omega
  exact Nat.testBit_lt_two_pow this

theorem lt128_of_testBit7 (z : Nat) (hz : z < 256) (h : z.testBit 7 = false) : z < 128 := by
  rw [Nat.testBit_to_div_mod] at h
  simp only [decide_eq_false_iff_not] at h
  omega

theorem ge128_of_testBit7 (z : Nat) (h : z.testBit 7 = true) : 128 ≤ z := by
  rw [Nat.testBit_to_div_mod] at h
  simp only [decide_eq_true_eq] at h
  omega

theorem nat_xor_left_comm (a b c : Nat) : a ^^^ (b ^^^ c) = b ^^^ (a ^^^ c) := by
  rw [← Nat.xor_assoc, Nat.xor_comm a b, Nat.xor_assoc]

theorem nat_xor_interchange (a b c d : Nat) : (a ^^^ b) ^^^ (c ^^^ d) = (a ^^^ c) ^^^ (b ^^^ d) := by
  simp [Nat.xor_assoc, Nat.xor_comm, nat_xor_left_comm]

/-- The GF(2^8) doubling step is linear over xor. -/
theorem xtime_bxor (x y : Byte) : xtime (bxor x y) = bxor (xtime x) (xtime y) := by
  apply Fin.ext
  show ((2 * (x.val ^^^ y.val)) % 256) ^^^ (if x.val ^^^ y.val < 128 then 0 else 27) =
    (((2 * x.val) % 256) ^^^ (if x.val < 128 then 0 else 27)) ^^^
    (((2 * y.val) % 256) ^^^ (if y.val < 128 then 0 else 27))
  have hmod : (2 * (x.val ^^^ y.val)) % 256 = ((2 * x.val) % 256) ^^^ ((2 * y.val) % 256) := by
    rw [two_mul_xor]
    have h := xor_mod_two_pow (2 * x.val) (2 * y.val) 8
    norm_num at h
    exact h
  have hcond : (if x.val ^^^ y.val < 128 then 0 else 27) =
      ((if x.val < 128 then 0 else 27) : Nat) ^^^ (if y.val < 128 then 0 else 27) := by
    by_cases hx : x.val < 128 <;> by_cases hy : y.val < 128
    · have : x.val ^^^ y.val < 128 := by
        have : (128 : Nat) = 2 ^ 7 := by norm_num
        rw [this] at hx hy ⊢
        exact Nat.xor_lt_two_pow hx hy
      simp [hx, hy, this]
    · have hb : (x.val ^^^ y.val).testBit 7 = true := by
        rw [Nat.testBit_xor, testBit7_of_lt x.val hx, testBit7_of_ge y.val (by omega) y.isLt]
        rfl
      have : ¬ (x.val ^^^ y.val < 128) := by
        have := ge128_of_testBit7 _ hb
        omega
      simp [hx, hy, this]
    · have hb : (x.val ^^^ y.val).testBit 7 = true := by
        rw [Nat.testBit_xor, testBit7_of_ge x.val (by omega) x.isLt, testBit7_of_lt y.val hy]
        rfl
      have : ¬ (x.val ^^^ y.val < 128) := by
        have := ge128_of_testBit7 _ hb
        omega
      simp [hx, hy, this]
    · have hb : (x.val ^^^ y.val).testBit 7 = false := by
        rw [Nat.testBit_xor, testBit7_of_ge x.val (by omega) x.isLt,
          testBit7_of_ge y.val (by omega) y.isLt]
        rfl
      have hlt : x.val ^^^ y.val < 128 := by
        apply lt128_of_testBit7 _ _ hb
        exact byte_xor_lt _ _ x.isLt y.isLt
      simp [hx, hy, hlt]
  rw [hmod, hcond]
  exact nat_xor_interchange _ _ _ _

/-- GF(2^8) multiplications by the MixColumns coefficients 2, 3, 9, 11, 13, 14,
expressed through `xtime` as in FIPS-197. -/
def mul2 (b : Byte) : Byte := xtime b

def mul3 (b : Byte) : Byte := bxor (xtime b) b

def mul9 (b : Byte) : Byte := bxor (xtime (xtime (xtime b))) b

def mul11 (b : Byte) : Byte := bxor (xtime (bxor (xtime (xtime b)) b)) b

def mul13 (b : Byte) : Byte := bxor (xtime (xtime (bxor (xtime b) b))) b

def mul14 (b : Byte) : Byte := xtime (bxor (xtime (bxor (xtime b) b)) b)

theorem mul2_bxor (x y : Byte) : mul2 (bxor x y) = bxor (mul2 x) (mul2 y) := xtime_bxor x y

theorem mul3_bxor (x y : Byte) : mul3 (bxor x y) = bxor (mul3 x) (mul3 y) := by
  simp only [mul3, xtime_bxor]
  simp [bxor_assoc, bxor_left_comm]

theorem mul9_bxor (x y : Byte) : mul9 (bxor x y) = bxor (mul9 x) (mul9 y) := by
  simp only [mul9, xtime_bxor]
  simp [bxor_assoc, bxor_left_comm]

theorem mul11_bxor (x y : Byte) : mul11 (bxor x y) = bxor (mul11 x) (mul11 y) := by
  simp only [mul11, xtime_bxor]
  simp [bxor_assoc, bxor_left_comm]

theorem mul13_bxor (x y : Byte) : mul13 (bxor x y) = bxor (mul13 x) (mul13 y) := by
  simp only [mul13, xtime_bxor]
  simp [bxor_assoc, bxor_left_comm]

theorem mul14_bxor (x y : Byte) : mul14 (bxor x y) = bxor (mul14 x) (mul14 y) := by
  simp only [mul14, xtime_bxor]
  simp [bxor_assoc, bxor_left_comm]

/-- The AES S-box of FIPS-197 (the `aes` crate's SubBytes table).
Modelled from the spec: the cipher is AES-256, whose S-box is this fixed
256-entry table. -/
def sboxTable : List Byte := [
  0x63, 0x7c, 0x77, 0x7b, 0xf2, 0x6b, 0x6f, 0xc5, 0x30, 0x01, 0x67, 0x2b, 0xfe, 0xd7, 0xab, 0x76,
  0xca, 0x82, 0xc9, 0x7d, 0xfa, 0x59, 0x47, 0xf0, 0xad, 0xd4, 0xa2, 0xaf, 0x9c, 0xa4, 0x72, 0xc0,
  0xb7, 0xfd, 0x93, 0x26, 0x36, 0x3f, 0xf7, 0xcc, 0x34, 0xa5, 0xe5, 0xf1, 0x71, 0xd8, 0x31, 0x15,
  0x04, 0xc7, 0x23, 0xc3, 0x18, 0x96, 0x05, 0x9a, 0x07, 0x12, 0x80, 0xe2, 0xeb, 0x27, 0xb2, 0x75,
  0x09, 0x83, 0x2c, 0x1a, 0x1b, 0x6e, 0x5a, 0xa0, 0x52, 0x3b, 0xd6, 0xb3, 0x29, 0xe3, 0x2f, 0x84,
  0x53, 0xd1, 0x00, 0xed, 0x20, 0xfc, 0xb1, 0x5b, 0x6a, 0xcb, 0xbe, 0x39, 0x4a, 0x4c, 0x58, 0xcf,
  0xd0, 0xef, 0xaa, 0xfb, 0x43, 0x4d, 0x33, 0x85, 0x45, 0xf9, 0x02, 0x7f, 0x50, 0x3c, 0x9f, 0xa8,
  0x51, 0xa3, 0x40, 0x8f, 0x92, 0x9d, 0x38, 0xf5, 0xbc, 0xb6, 0xda, 0x21, 0x10, 0xff, 0xf3, 0xd2,
  0xcd, 0x0c, 0x13, 0xec, 0x5f, 0x97, 0x44, 0x17, 0xc4, 0xa7, 0x7e, 0x3d, 0x64, 0x5d, 0x19, 0x73,
  0x60, 0x81, 0x4f, 0xdc, 0x22, 0x2a, 0x90, 0x88, 0x46, 0xee, 0xb8, 0x14, 0xde, 0x5e, 0x0b, 0xdb,
  0xe0, 0x32, 0x3a, 0x0a, 0x49, 0x06, 0x24, 0x5c, 0xc2, 0xd3, 0xac, 0x62, 0x91, 0x95, 0xe4, 0x79,
  0xe7, 0xc8, 0x37, 0x6d, 0x8d, 0xd5, 0x4e, 0xa9, 0x6c, 0x56, 0xf4, 0xea, 0x65, 0x7a, 0xae, 0x08,
  0xba, 0x78, 0x25, 0x2e, 0x1c, 0xa6, 0xb4, 0xc6, 0xe8, 0xdd, 0x74, 0x1f, 0x4b, 0xbd, 0x8b, 0x8a,
  0x70, 0x3e, 0xb5, 0x66, 0x48, 0x03, 0xf6, 0x0e, 0x61, 0x35, 0x57, 0xb9, 0x86, 0xc1, 0x1d, 0x9e,
  0xe1, 0xf8, 0x98, 0x11, 0x69, 0xd9, 0x8e, 0x94, 0x9b, 0x1e, 0x87, 0xe9, 0xce, 0x55, 0x28, 0xdf,
  0x8c, 0xa1, 0x89, 0x0d, 0xbf, 0xe6, 0x42, 0x68, 0x41, 0x99, 0x2d, 0x0f, 0xb0, 0x54, 0xbb, 0x16]

/-- The inverse AES S-box of FIPS-197. -/
def invSboxTable : List Byte := [
  0x52, 0x09, 0x6a, 0xd5, 0x30, 0x36, 0xa5, 0x38, 0xbf, 0x40, 0xa3, 0x9e, 0x81, 0xf3, 0xd7, 0xfb,
  0x7c, 0xe3, 0x39, 0x82, 0x9b, 0x2f, 0xff, 0x87, 0x34, 0x8e, 0x43, 0x44, 0xc4, 0xde, 0xe9, 0xcb,
  0x54, 0x7b, 0x94, 0x32, 0xa6, 0xc2, 0x23, 0x3d, 0xee, 0x4c, 0x95, 0x0b, 0x42, 0xfa, 0xc3, 0x4e,
  0x08, 0x2e, 0xa1, 0x66, 0x28, 0xd9, 0x24, 0xb2, 0x76, 0x5b, 0xa2, 0x49, 0x6d, 0x8b, 0xd1, 0x25,
  0x72, 0xf8, 0xf6, 0x64, 0x86, 0x68, 0x98, 0x16, 0xd4, 0xa4, 0x5c, 0xcc, 0x5d, 0x65, 0xb6, 0x92,
  0x6c, 0x70, 0x48, 0x50, 0xfd, 0xed, 0xb9, 0xda, 0x5e, 0x15, 0x46, 0x57, 0xa7, 0x8d, 0x9d, 0x84,
  0x90, 0xd8, 0xab, 0x00, 0x8c, 0xbc, 0xd3, 0x0a, 0xf7, 0xe4, 0x58, 0x05, 0xb8, 0xb3, 0x45, 0x06,
  0xd0, 0x2c, 0x1e, 0x8f, 0xca, 0x3f, 0x0f, 0x02, 0xc1, 0xaf, 0xbd, 0x03, 0x01, 0x13, 0x8a, 0x6b,
  0x3a, 0x91, 0x11, 0x41, 0x4f, 0x67, 0xdc, 0xea, 0x97, 0xf2, 0xcf, 0xce, 0xf0, 0xb4, 0xe6, 0x73,
  0x96, 0xac, 0x74, 0x22, 0xe7, 0xad, 0x35, 0x85, 0xe2, 0xf9, 0x37, 0xe8, 0x1c, 0x75, 0xdf, 0x6e,
  0x47, 0xf1, 0x1a, 0x71, 0x1d, 0x29, 0xc5, 0x89, 0x6f, 0xb7, 0x62, 0x0e, 0xaa, 0x18, 0xbe, 0x1b,
  0xfc, 0x56, 0x3e, 0x4b, 0xc6, 0xd2, 0x79, 0x20, 0x9a, 0xdb, 0xc0, 0xfe, 0x78, 0xcd, 0x5a, 0xf4,
  0x1f, 0xdd, 0xa8, 0x33, 0x88, 0x07, 0xc7, 0x31, 0xb1, 0x12, 0x10, 0x59, 0x27, 0x80, 0xec, 0x5f,
  0x60, 0x51, 0x7f, 0xa9, 0x19, 0xb5, 0x4a, 0x0d, 0x2d, 0xe5, 0x7a, 0x9f, 0x93, 0xc9, 0x9c, 0xef,
  0xa0, 0xe0, 0x3b, 0x4d, 0xae, 0x2a, 0xf5, 0xb0, 0xc8, 0xeb, 0xbb, 0x3c, 0x83, 0x53, 0x99, 0x61,
  0x17, 0x2b, 0x04, 0x7e, 0xba, 0x77, 0xd6, 0x26, 0xe1, 0x69, 0x14, 0x63, 0x55, 0x21, 0x0c, 0x7d]

def sbox (b : Byte) : Byte := sboxTable.getD b.val 0

def invSbox (b : Byte) : Byte := invSboxTable.getD b.val 0

theorem invSbox_sbox : ∀ b : Byte, invSbox (sbox b) = b := by decide

/-- MixColumns on one column, component by component (FIPS-197, section 5.1.3). -/
def mc0 (a0 a1 a2 a3 : Byte) : Byte := bxor (bxor (mul2 a0) (mul3 a1)) (bxor a2 a3)

def mc1 (a0 a1 a2 a3 : Byte) : Byte := bxor (bxor a0 (mul2 a1)) (bxor (mul3 a2) a3)

def mc2 (a0 a1 a2 a3 : Byte) : Byte := bxor (bxor a0 a1) (bxor (mul2 a2) (mul3 a3))

def mc3 (a0 a1 a2 a3 : Byte) : Byte := bxor (bxor (mul3 a0) a1) (bxor a2 (mul2 a3))

/-- Inverse MixColumns on one column (FIPS-197, section 5.3.3). -/
def imc0 (a0 a1 a2 a3 : Byte) : Byte := bxor (bxor (mul14 a0) (mul11 a1)) (bxor (mul13 a2) (mul9 a3))

def imc1 (a0 a1 a2 a3 : Byte) : Byte := bxor (bxor (mul9 a0) (mul14 a1)) (bxor (mul11 a2) (mul13 a3))

def imc2 (a0 a1 a2 a3 : Byte) : Byte := bxor (bxor (mul13 a0) (mul9 a1)) (bxor (mul14 a2) (mul11 a3))

def imc3 (a0 a1 a2 a3 : Byte) : Byte := bxor (bxor (mul11 a0) (mul13 a1)) (bxor (mul9 a2) (mul14 a3))

abbrev Col := Byte × Byte × Byte × Byte

def colXor (u v : Col) : Col :=
  (bxor u.1 v.1, bxor u.2.1 v.2.1, bxor u.2.2.1 v.2.2.1, bxor u.2.2.2 v.2.2.2)

def mixQ (v : Col) : Col :=
  (mc0 v.1 v.2.1 v.2.2.1 v.2.2.2, mc1 v.1 v.2.1 v.2.2.1 v.2.2.2,
   mc2 v.1 v.2.1 v.2.2.1 v.2.2.2, mc3 v.1 v.2.1 v.2.2.1 v.2.2.2)

def invMixQ (v : Col) : Col :=
  (imc0 v.1 v.2.1 v.2.2.1 v.2.2.2, imc1 v.1 v.2.1 v.2.2.1 v.2.2.2,
   imc2 v.1 v.2.1 v.2.2.1 v.2.2.2, imc3 v.1 v.2.1 v.2.2.1 v.2.2.2)

theorem mc0_lin (a0 a1 a2 a3 b0 b1 b2 b3 : Byte) :
    mc0 (bxor a0 b0) (bxor a1 b1) (bxor a2 b2) (bxor a3 b3) =
    bxor (mc0 a0 a1 a2 a3) (mc0 b0 b1 b2 b3) := by
  simp only [mc0, mul2_bxor, mul3_bxor]
  simp [bxor_assoc, bxor_left_comm]

theorem mc1_lin (a0 a1 a2 a3 b0 b1 b2 b3 : Byte) :
    mc1 (bxor a0 b0) (bxor a1 b1) (bxor a2 b2) (bxor a3 b3) =
    bxor (mc1 a0 a1 a2 a3) (mc1 b0 b1 b2 b3) := by
  simp only [mc1, mul2_bxor, mul3_bxor]
  simp [bxor_assoc, bxor_left_comm]

theorem mc2_lin (a0 a1 a2 a3 b0 b1 b2 b3 : Byte) :
    mc2 (bxor a0 b0) (bxor a1 b1) (bxor a2 b2) (bxor a3 b3) =
    bxor (mc2 a0 a1 a2 a3) (mc2 b0 b1 b2 b3) := by
  simp only [mc2, mul2_bxor, mul3_bxor]
  simp [bxor_assoc, bxor_left_comm]

theorem mc3_lin (a0 a1 a2 a3 b0 b1 b2 b3 : Byte) :
    mc3 (bxor a0 b0) (bxor a1 b1) (bxor a2 b2) (bxor a3 b3) =
    bxor (mc3 a0 a1 a2 a3) (mc3 b0 b1 b2 b3) := by
  simp only [mc3, mul2_bxor, mul3_bxor]
  simp [bxor_assoc, bxor_left_comm]

theorem imc0_lin (a0 a1 a2 a3 b0 b1 b2 b3 : Byte) :
    imc0 (bxor a0 b0) (bxor a1 b1) (bxor a2 b2) (bxor a3 b3) =
    bxor (imc0 a0 a1 a2 a3) (imc0 b0 b1 b2 b3) := by
  simp only [imc0, mul9_bxor, mul11_bxor, mul13_bxor, mul14_bxor]
  simp [bxor_assoc, bxor_left_comm]

theorem imc1_lin (a0 a1 a2 a3 b0 b1 b2 b3 : Byte) :
    imc1 (bxor a0 b0) (bxor a1 b1) (bxor a2 b2) (bxor a3 b3) =
    bxor (imc1 a0 a1 a2 a3) (imc1 b0 b1 b2 b3) := by
  simp only [imc1, mul9_bxor, mul11_bxor, mul13_bxor, mul14_bxor]
  simp [bxor_assoc, bxor_left_comm]

theorem imc2_lin (a0 a1 a2 a3 b0 b1 b2 b3 : Byte) :
    imc2 (bxor a0 b0) (bxor a1 b1) (bxor a2 b2) (bxor a3 b3) =
    bxor (imc2 a0 a1 a2 a3) (imc2 b0 b1 b2 b3) := by
  simp only [imc2, mul9_bxor, mul11_bxor, mul13_bxor, mul14_bxor]
  simp [bxor_assoc, bxor_left_comm]

theorem imc3_lin (a0 a1 a2 a3 b0 b1 b2 b3 : Byte) :
    imc3 (bxor a0 b0) (bxor a1 b1) (bxor a2 b2) (bxor a3 b3) =
    bxor (imc3 a0 a1 a2 a3) (imc3 b0 b1 b2 b3) := by
  simp only [imc3, mul9_bxor, mul11_bxor, mul13_bxor, mul14_bxor]
  simp [bxor_assoc, bxor_left_comm]

theorem mixQ_lin (u v : Col) : mixQ (colXor u v) = colXor (mixQ u) (mixQ v) := by
  obtain ⟨a0, a1, a2, a3⟩ := u
  obtain ⟨b0, b1, b2, b3⟩ := v
  simp [mixQ, colXor, mc0_lin, mc1_lin, mc2_lin, mc3_lin]

theorem invMixQ_lin (u v : Col) : invMixQ (colXor u v) = colXor (invMixQ u) (invMixQ v) := by
  obtain ⟨a0, a1, a2, a3⟩ := u
  obtain ⟨b0, b1, b2, b3⟩ := v
  simp [invMixQ, colXor, imc0_lin, imc1_lin, imc2_lin, imc3_lin]

theorem invMixQ_mixQ_e0 : ∀ a : Byte, invMixQ (mixQ (a, 0, 0, 0)) = (a, 0, 0, 0) := by decide

theorem invMixQ_mixQ_e1 : ∀ a : Byte, invMixQ (mixQ (0, a, 0, 0)) = (0, a, 0, 0) := by decide

theorem invMixQ_mixQ_e2 : ∀ a : Byte, invMixQ (mixQ (0, 0, a, 0)) = (0, 0, a, 0) := by decide

theorem invMixQ_mixQ_e3 : ∀ a : Byte, invMixQ (mixQ (0, 0, 0, a)) = (0, 0, 0, a) := by decide

theorem col_decomp (a0 a1 a2 a3 : Byte) :
    ((a0, a1, a2, a3) : Col) =
    colXor (a0, 0, 0, 0) (colXor (0, a1, 0, 0) (colXor (0, 0, a2, 0) (0, 0, 0, a3))) := by
  simp [colXor, bxor_zero, zero_bxor]

theorem invMixQ_mixQ (v : Col) : invMixQ (mixQ v) = v := by
  obtain ⟨a0, a1, a2, a3⟩ := v
  rw [col_decomp a0 a1 a2 a3]
  rw [mixQ_lin, mixQ_lin, mixQ_lin, invMixQ_lin, invMixQ_lin, invMixQ_lin,
    invMixQ_mixQ_e0, invMixQ_mixQ_e1, invMixQ_mixQ_e2, invMixQ_mixQ_e3]

theorem col_inv0 (a0 a1 a2 a3 : Byte) :
    imc0 (mc0 a0 a1 a2 a3) (mc1 a0 a1 a2 a3) (mc2 a0 a1 a2 a3) (mc3 a0 a1 a2 a3) = a0 :=
  congrArg Prod.fst (invMixQ_mixQ (a0, a1, a2, a3))

theorem col_inv1 (a0 a1 a2 a3 : Byte) :
    imc1 (mc0 a0 a1 a2 a3) (mc1 a0 a1 a2 a3) (mc2 a0 a1 a2 a3) (mc3 a0 a1 a2 a3) = a1 :=
  congrArg (fun v => v.2.1) (invMixQ_mixQ (a0, a1, a2, a3))

theorem col_inv2 (a0 a1 a2 a3 : Byte) :
    imc2 (mc0 a0 a1 a2 a3) (mc1 a0 a1 a2 a3) (mc2 a0 a1 a2 a3) (mc3 a0 a1 a2 a3) = a2 :=
  congrArg (fun v => v.2.2.1) (invMixQ_mixQ (a0, a1, a2, a3))

theorem col_inv3 (a0 a1 a2 a3 : Byte) :
    imc3 (mc0 a0 a1 a2 a3) (mc1 a0 a1 a2 a3) (mc2 a0 a1 a2 a3) (mc3 a0 a1 a2 a3) = a3 :=
  congrArg (fun v => v.2.2.2) (invMixQ_mixQ (a0, a1, a2, a3))

/-- One 16-byte AES state / block, column-major as in FIPS-197:
byte r + 4*c is row r, column c. -/
structure B16 where
  b0 : Byte
  b1 : Byte
  b2 : Byte
  b3 : Byte
  b4 : Byte
  b5 : Byte
  b6 : Byte
  b7 : Byte
  b8 : Byte
  b9 : Byte
  b10 : Byte
  b11 : Byte
  b12 : Byte
  b13 : Byte
  b14 : Byte
  b15 : Byte
deriving DecidableEq

def subBytes (s : B16) : B16 :=
  ⟨sbox s.b0, sbox s.b1, sbox s.b2, sbox s.b3, sbox s.b4, sbox s.b5, sbox s.b6, sbox s.b7,
   sbox s.b8, sbox s.b9, sbox s.b10, sbox s.b11, sbox s.b12, sbox s.b13, sbox s.b14, sbox s.b15⟩

def invSubBytes (s : B16) : B16 :=
  ⟨invSbox s.b0, invSbox s.b1, invSbox s.b2, invSbox s.b3, invSbox s.b4, invSbox s.b5,
   invSbox s.b6, invSbox s.b7, invSbox s.b8, invSbox s.b9, invSbox s.b10, invSbox s.b11,
   invSbox s.b12, invSbox s.b13, invSbox s.b14, invSbox s.b15⟩

/-- ShiftRows: row r of the column-major state is rotated left by r. -/
def shiftRows (s : B16) : B16 :=
  ⟨s.b0, s.b5, s.b10, s.b15, s.b4, s.b9, s.b14, s.b3, s.b8, s.b13, s.b2, s.b7,
   s.b12, s.b1, s.b6, s.b11⟩

/-- InvShiftRows: row r of the column-major state is rotated right by r. -/
def invShiftRows (s : B16) : B16 :=
  ⟨s.b0, s.b13, s.b10, s.b7, s.b4, s.b1, s.b14, s.b11, s.b8, s.b5, s.b2, s.b15,
   s.b12, s.b9, s.b6, s.b3⟩

def mixColumns (s : B16) : B16 :=
  ⟨mc0 s.b0 s.b1 s.b2 s.b3, mc1 s.b0 s.b1 s.b2 s.b3, mc2 s.b0 s.b1 s.b2 s.b3,
   mc3 s.b0 s.b1 s.b2 s.b3,
   mc0 s.b4 s.b5 s.b6 s.b7, mc1 s.b4 s.b5 s.b6 s.b7, mc2 s.b4 s.b5 s.b6 s.b7,
   mc3 s.b4 s.b5 s.b6 s.b7,
   mc0 s.b8 s.b9 s.b10 s.b11, mc1 s.b8 s.b9 s.b10 s.b11, mc2 s.b8 s.b9 s.b10 s.b11,
   mc3 s.b8 s.b9 s.b10 s.b11,
   mc0 s.b12 s.b13 s.b14 s.b15, mc1 s.b12 s.b13 s.b14 s.b15, mc2 s.b12 s.b13 s.b14 s.b15,
   mc3 s.b12 s.b13 s.b14 s.b15⟩

def invMixColumns (s : B16) : B16 :=
  ⟨imc0 s.b0 s.b1 s.b2 s.b3, imc1 s.b0 s.b1 s.b2 s.b3, imc2 s.b0 s.b1 s.b2 s.b3,
   imc3 s.b0 s.b1 s.b2 s.b3,
   imc0 s.b4 s.b5 s.b6 s.b7, imc1 s.b4 s.b5 s.b6 s.b7, imc2 s.b4 s.b5 s.b6 s.b7,
   imc3 s.b4 s.b5 s.b6 s.b7,
   imc0 s.b8 s.b9 s.b10 s.b11, imc1 s.b8 s.b9 s.b10 s.b11, imc2 s.b8 s.b9 s.b10 s.b11,
   imc3 s.b8 s.b9 s.b10 s.b11,
   imc0 s.b12 s.b13 s.b14 s.b15, imc1 s.b12 s.b13 s.b14 s.b15, imc2 s.b12 s.b13 s.b14 s.b15,
   imc3 s.b12 s.b13 s.b14 s.b15⟩

def addRoundKey (k s : B16) : B16 :=
  ⟨bxor s.b0 k.b0, bxor s.b1 k.b1, bxor s.b2 k.b2, bxor s.b3 k.b3,
   bxor s.b4 k.b4, bxor s.b5 k.b5, bxor s.b6 k.b6, bxor s.b7 k.b7,
   bxor s.b8 k.b8, bxor s.b9 k.b9, bxor s.b10 k.b10, bxor s.b11 k.b11,
   bxor s.b12 k.b12, bxor s.b13 k.b13, bxor s.b14 k.b14, bxor s.b15 k.b15⟩

theorem invSubBytes_subBytes (s : B16) : invSubBytes (subBytes s) = s := by
  cases s
  simp [subBytes, invSubBytes, invSbox_sbox]

theorem invShiftRows_shiftRows (s : B16) : invShiftRows (shiftRows s) = s := by
  cases s
  rfl

theorem invMixColumns_mixColumns (s : B16) : invMixColumns (mixColumns s) = s := by
  cases s
  simp [mixColumns, invMixColumns, col_inv0, col_inv1, col_inv2, col_inv3]

theorem addRoundKey_addRoundKey (k s : B16) : addRoundKey k (addRoundKey k s) = s := by
  cases s
  cases k
  simp [addRoundKey, bxor_cancel_right]

/-- One four-byte word of the key schedule. -/
structure W4 where
  a : Byte
  b : Byte
  c : Byte
  d : Byte

def xorW (u v : W4) : W4 := ⟨bxor u.a v.a, bxor u.b v.b, bxor u.c v.c, bxor u.d v.d⟩

def rotWord (w : W4) : W4 := ⟨w.b, w.c, w.d, w.a⟩

def subWord (w : W4) : W4 := ⟨sbox w.a, sbox w.b, sbox w.c, sbox w.d⟩

/-- Round constants of the key schedule, indexed by i / 8 for i = 8 .. 59. -/
def rconTable : List Byte := [0, 1, 2, 4, 8, 0x10, 0x20, 0x40]

/-- AES-256 key expansion (FIPS-197, section 5.2, Nk = 8): word i of the
expanded key, for a 32-byte key given as a byte list.
Modelled from the spec: the key schedule of the 256-bit-key cipher built by
`Aes256Cbc::new_from_slices`. -/
def keyWord (key : List Byte) (i : Nat) : W4 :=
  if h : i < 8 then
    ⟨key.getD (4 * i) 0, key.getD (4 * i + 1) 0, key.getD (4 * i + 2) 0, key.getD (4 * i + 3) 0⟩
  else
    let prev := keyWord key (i - 1)
    let old := keyWord key (i - 8)
    let tmp :=
      if i % 8 = 0 then xorW (subWord (rotWord prev)) ⟨rconTable.getD (i / 8) 0, 0, 0, 0⟩
      else if i % 8 = 4 then subWord prev
      else prev
    xorW old tmp
termination_by i
decreasing_by
  · omega
  · omega

/-- Round key r as a 16-byte block (words 4r .. 4r+3, column-major). -/
def roundKey (key : List Byte) (r : Nat) : B16 :=
  let w0 := keyWord key (4 * r)
  let w1 := keyWord key (4 * r + 1)
  let w2 := keyWord key (4 * r + 2)
  let w3 := keyWord key (4 * r + 3)
  ⟨w0.a, w0.b, w0.c, w0.d, w1.a, w1.b, w1.c, w1.d,
   w2.a, w2.b, w2.c, w2.d, w3.a, w3.b, w3.c, w3.d⟩

/-- AES-256 block encryption (FIPS-197, 14 rounds).
Modelled from the spec: the encrypt direction of the 256-bit-key,
128-bit-block cipher used by `encrypt_vec`. -/
def aesEncryptBlock (key : List Byte) (s : B16) : B16 :=
  let t := addRoundKey (roundKey key 0) s
  let t := addRoundKey (roundKey key 1) (mixColumns (shiftRows (subBytes t)))
  let t := addRoundKey (roundKey key 2) (mixColumns (shiftRows (subBytes t)))
  let t := addRoundKey (roundKey key 3) (mixColumns (shiftRows (subBytes t)))
  let t := addRoundKey (roundKey key 4) (mixColumns (shiftRows (subBytes t)))
  let t := addRoundKey (roundKey key 5) (mixColumns (shiftRows (subBytes t)))
  let t := addRoundKey (roundKey key 6) (mixColumns (shiftRows (subBytes t)))
  let t := addRoundKey (roundKey key 7) (mixColumns (shiftRows (subBytes t)))
  let t := addRoundKey (roundKey key 8) (mixColumns (shiftRows (subBytes t)))
  let t := addRoundKey (roundKey key 9) (mixColumns (shiftRows (subBytes t)))
  let t := addRoundKey (roundKey key 10) (mixColumns (shiftRows (subBytes t)))
  let t := addRoundKey (roundKey key 11) (mixColumns (shiftRows (subBytes t)))
  let t := addRoundKey (roundKey key 12) (mixColumns (shiftRows (subBytes t)))
  let t := addRoundKey (roundKey key 13) (mixColumns (shiftRows (subBytes t)))
  addRoundKey (roundKey key 14) (shiftRows (subBytes t))

/-- AES-256 block decryption (FIPS-197 inverse cipher).
Modelled from the spec: the decrypt direction used by `decrypt_vec`. -/
def aesDecryptBlock (key : List Byte) (s : B16) : B16 :=
  let t := addRoundKey (roundKey key 14) s
  let t := invSubBytes (invShiftRows t)
  let t := invMixColumns (addRoundKey (roundKey key 13) t)
  let t := invSubBytes (invShiftRows t)
  let t := invMixColumns (addRoundKey (roundKey key 12) t)
  let t := invSubBytes (invShiftRows t)
  let t := invMixColumns (addRoundKey (roundKey key 11) t)
  let t := invSubBytes (invShiftRows t)
  let t := invMixColumns (addRoundKey (roundKey key 10) t)
  let t := invSubBytes (invShiftRows t)
  let t := invMixColumns (addRoundKey (roundKey key 9) t)
  let t := invSubBytes (invShiftRows t)
  let t := invMixColumns (addRoundKey (roundKey key 8) t)
  let t := invSubBytes (invShiftRows t)
  let t := invMixColumns (addRoundKey (roundKey key 7) t)
  let t := invSubBytes (invShiftRows t)
  let t := invMixColumns (addRoundKey (roundKey key 6) t)
  let t := invSubBytes (invShiftRows t)
  let t := invMixColumns (addRoundKey (roundKey key 5) t)
  let t := invSubBytes (invShiftRows t)
  let t := invMixColumns (addRoundKey (roundKey key 4) t)
  let t := invSubBytes (invShiftRows t)
  let t := invMixColumns (addRoundKey (roundKey key 3) t)
  let t := invSubBytes (invShiftRows t)
  let t := invMixColumns (addRoundKey (roundKey key 2) t)
  let t := invSubBytes (invShiftRows t)
  let t := invMixColumns (addRoundKey (roundKey key 1) t)
  let t := invSubBytes (invShiftRows t)
  addRoundKey (roundKey key 0) t

/-- The AES-256 block decryption inverts block encryption, for every
(expanded) key. -/
theorem aesDecryptBlock_aesEncryptBlock (key : List Byte) (s : B16) :
    aesDecryptBlock key (aesEncryptBlock key s) = s := by
  simp only [aesEncryptBlock, aesDecryptBlock, addRoundKey_addRoundKey,
    invShiftRows_shiftRows, invSubBytes_subBytes, invMixColumns_mixColumns]

def b16Xor (u v : B16) : B16 :=
  ⟨bxor u.b0 v.b0, bxor u.b1 v.b1, bxor u.b2 v.b2, bxor u.b3 v.b3,
   bxor u.b4 v.b4, bxor u.b5 v.b5, bxor u.b6 v.b6, bxor u.b7 v.b7,
   bxor u.b8 v.b8, bxor u.b9 v.b9, bxor u.b10 v.b10, bxor u.b11 v.b11,
   bxor u.b12 v.b12, bxor u.b13 v.b13, bxor u.b14 v.b14, bxor u.b15 v.b15⟩

theorem b16Xor_cancel (p prev : B16) : b16Xor (b16Xor p prev) prev = p := by
  cases p
  cases prev
  simp [b16Xor, bxor_cancel_right]

def b16ToList (s : B16) : List Byte :=
  [s.b0, s.b1, s.b2, s.b3, s.b4, s.b5, s.b6, s.b7,
   s.b8, s.b9, s.b10, s.b11, s.b12, s.b13, s.b14, s.b15]

def b16OfList (l : List Byte) : B16 :=
  ⟨l.getD 0 0, l.getD 1 0, l.getD 2 0, l.getD 3 0, l.getD 4 0, l.getD 5 0, l.getD 6 0,
   l.getD 7 0, l.getD 8 0, l.getD 9 0, l.getD 10 0, l.getD 11 0, l.getD 12 0, l.getD 13 0,
   l.getD 14 0, l.getD 15 0⟩

/-- Split a byte sequence into 16-byte blocks (any trailing partial block is
dropped; the callers only use it on multiples of the block size, as
`decrypt_vec` rejects other lengths). -/
def chunk16 : List Byte → List B16
  | a0 :: a1 :: a2 :: a3 :: a4 :: a5 :: a6 :: a7 ::
    a8 :: a9 :: a10 :: a11 :: a12 :: a13 :: a14 :: a15 :: rest =>
      ⟨a0, a1, a2, a3, a4, a5, a6, a7, a8, a9, a10, a11, a12, a13, a14, a15⟩ :: chunk16 rest
  | _ => []

def unchunk : List B16 → List Byte
  | [] => []
  | b :: bs => b16ToList b ++ unchunk bs

theorem chunk16_unchunk : ∀ bs : List B16, chunk16 (unchunk bs) = bs
  | [] => rfl
  | b :: bs => congrArg (List.cons b) (chunk16_unchunk bs)

theorem unchunk_chunk16 : ∀ l : List Byte, l.length % 16 = 0 → unchunk (chunk16 l) = l
  | [], _ => rfl
  | a0 :: a1 :: a2 :: a3 :: a4 :: a5 :: a6 :: a7 ::
    a8 :: a9 :: a10 :: a11 :: a12 :: a13 :: a14 :: a15 :: rest, h => by
    have hr : rest.length % 16 = 0 := by
      simp only [List.length_cons] at h
      omega
    simp only [chunk16, unchunk, b16ToList, List.cons_append, List.nil_append]
    rw [unchunk_chunk16 rest hr]
  | [_], h => by simp at h
  | [_, _], h => by simp at h
  | [_, _, _], h => by simp at h
  | [_, _, _, _], h => by simp at h
  | [_, _, _, _, _], h => by simp at h
  | [_, _, _, _, _, _], h => by simp at h
  | [_, _, _, _, _, _, _], h => by simp at h
  | [_, _, _, _, _, _, _, _], h => by simp at h
  | [_, _, _, _, _, _, _, _, _], h => by simp at h
  | [_, _, _, _, _, _, _, _, _, _], h => by simp at h
  | [_, _, _, _, _, _, _, _, _, _, _], h => by simp at h
  | [_, _, _, _, _, _, _, _, _, _, _, _], h => by simp at h
  | [_, _, _, _, _, _, _, _, _, _, _, _, _], h => by simp at h
  | [_, _, _, _, _, _, _, _, _, _, _, _, _, _], h => by simp at h
  | [_, _, _, _, _, _, _, _, _, _, _, _, _, _, _], h => by simp at h

theorem unchunk_length : ∀ bs : List B16, (unchunk bs).length = 16 * bs.length
  | [] => rfl
  | b :: bs => by
    simp only [unchunk, b16ToList, List.length_append, List.length_cons]
    rw [unchunk_length bs]
    simp
    omega

/-- CBC encryption over whole blocks: each plaintext block is xored with the
previous ciphertext block (initially the IV) and sent through the block
cipher.  Modelled from the spec: the CBC mode of `block_modes::Cbc` used by
`encrypt_vec`. -/
def cbcEncBlocks (key : List Byte) : B16 → List B16 → List B16
  | _, [] => []
  | prev, p :: ps =>
    let c := aesEncryptBlock key (b16Xor p prev)
    c :: cbcEncBlocks key c ps

/-- CBC decryption over whole blocks.  Modelled from the spec: the CBC mode of
`block_modes::Cbc` used by `decrypt_vec`. -/
def cbcDecBlocks (key : List Byte) : B16 → List B16 → List B16
  | _, [] => []
  | prev, c :: cs => b16Xor (aesDecryptBlock key c) prev :: cbcDecBlocks key c cs

theorem cbcDecBlocks_cbcEncBlocks (key : List Byte) :
    ∀ (ps : List B16) (prev : B16), cbcDecBlocks key prev (cbcEncBlocks key prev ps) = ps
  | [], _ => rfl
  | p :: ps, prev => by
    simp only [cbcEncBlocks, cbcDecBlocks, aesDecryptBlock_aesEncryptBlock, b16Xor_cancel]
    rw [cbcDecBlocks_cbcEncBlocks key ps]

theorem cbcEncBlocks_length (key : List Byte) :
    ∀ (ps : List B16) (prev : B16), (cbcEncBlocks key prev ps).length = ps.length
  | [], _ => rfl
  | p :: ps, prev => by
    simp only [cbcEncBlocks, List.length_cons]
    rw [cbcEncBlocks_length key ps]

/-- The PKCS#7 pad byte: 16 - (length mod 16), always between 1 and 16. -/
def padByte (n : Nat) : Byte := ⟨16 - n % 16, by omega⟩

/-- PKCS#7 padding: append k copies of the byte k, where k = 16 - len mod 16.
Modelled from the spec: `encrypt_vec` always pads, adding 1 to 16 bytes. -/
def pad16 (d : List Byte) : List Byte :=
  d ++ List.replicate (16 - d.length % 16) (padByte d.length)

/-- PKCS#7 unpadding with validation: the last byte k must be between 1 and 16
and the last k bytes must all equal k; otherwise the input is rejected.
Modelled from the spec: the only integrity checks of `decrypt_vec` are the
block-size check and this padding check. -/
def unpad (l : List Byte) : Option (List Byte) :=
  match l.getLast? with
  | none => none
  | some b =>
    if 1 ≤ b.val ∧ b.val ≤ 16 ∧ b.val ≤ l.length ∧
        (l.drop (l.length - b.val)).all (fun x => x == b) then
      some (l.take (l.length - b.val))
    else none

theorem pad16_length (d : List Byte) : (pad16 d).length = d.length + (16 - d.length % 16) := by
  simp [pad16]

theorem pad16_length_mod (d : List Byte) : (pad16 d).length % 16 = 0 := by
  rw [pad16_length]
  omega

theorem unpad_some (l : List Byte) (b : Byte) (hlast : l.getLast? = some b)
    (hcond : 1 ≤ b.val ∧ b.val ≤ 16 ∧ b.val ≤ l.length ∧
      (l.drop (l.length - b.val)).all (fun x => x == b)) :
    unpad l = some (l.take (l.length - b.val)) := by
  rw [unpad, hlast]
  exact if_pos hcond

theorem unpad_pad16 (d : List Byte) : unpad (pad16 d) = some d := by
  have hlen : (pad16 d).length = d.length + (16 - d.length % 16) := pad16_length d
  have hlast : (pad16 d).getLast? = some (padByte d.length) := by
    rw [pad16, List.getLast?_append, List.getLast?_replicate]
    have h0 : ¬ (16 - d.length % 16 = 0) := by omega
    simp [h0]
  have hvb : (padByte d.length).val = 16 - d.length % 16 := rfl
  have hlen2 : (d ++ List.replicate (16 - d.length % 16) (padByte d.length)).length =
      d.length + (16 - d.length % 16) := by
    simp
  have hdlen : d.length =
      (d ++ List.replicate (16 - d.length % 16) (padByte d.length)).length -
        (padByte d.length).val := by
    rw [hlen2, hvb]
    omega
  have hdrop : (pad16 d).drop ((pad16 d).length - (padByte d.length).val) =
      List.replicate (16 - d.length % 16) (padByte d.length) := by
    rw [pad16]
    exact List.drop_left' hdlen
  have htake : (pad16 d).take ((pad16 d).length - (padByte d.length).val) = d := by
    rw [pad16]
    exact List.take_left' hdlen
  have hcond : 1 ≤ (padByte d.length).val ∧ (padByte d.length).val ≤ 16 ∧
      (padByte d.length).val ≤ (pad16 d).length ∧
      ((pad16 d).drop ((pad16 d).length - (padByte d.length).val)).all
        (fun x => x == padByte d.length) := by
    refine ⟨by rw [hvb]; omega, by rw [hvb]; omega, by rw [hvb, hlen]; omega, ?_⟩
    rw [hdrop]
    simp [List.all_eq_true, List.mem_replicate]
  rw [unpad_some _ _ hlast hcond, htake]

/-- The byte-level encrypt transform of `encrypt_file`: PKCS#7-pad, split into
16-byte blocks, CBC-encrypt with the IV as initial chaining block, and
reassemble. -/
def encryptTransform (key iv d : List Byte) : List Byte :=
  unchunk (cbcEncBlocks key (b16OfList iv) (chunk16 (pad16 d)))

/-- The raw CBC decryption of `decrypt_file`, before unpadding. -/
def cbcDecryptBytes (key iv ct : List Byte) : List Byte :=
  unchunk (cbcDecBlocks key (b16OfList iv) (chunk16 ct))

/-- The byte-level decrypt transform of `decrypt_file`: reject lengths that
are not a multiple of 16, CBC-decrypt, validate and strip the PKCS#7 padding.
Returns `none` exactly when `decrypt_vec` returns a `BlockModeError`. -/
def decryptTransform (key iv ct : List Byte) : Option (List Byte) :=
  if ct.length % 16 = 0 then unpad (cbcDecryptBytes key iv ct) else none

theorem encryptTransform_length (key iv d : List Byte) :
    (encryptTransform key iv d).length = d.length + (16 - d.length % 16) := by
  rw [encryptTransform, unchunk_length, cbcEncBlocks_length]
  have h : 16 * (chunk16 (pad16 d)).length = (pad16 d).length := by
    rw [← unchunk_length, unchunk_chunk16 _ (pad16_length_mod d)]
  rw [h, pad16_length]

theorem decryptTransform_encryptTransform (key iv d : List Byte) :
    decryptTransform key iv (encryptTransform key iv d) = some d := by
  have hmod : (encryptTransform key iv d).length % 16 = 0 := by
    rw [encryptTransform_length]
    omega
  rw [decryptTransform, if_pos hmod, cbcDecryptBytes, encryptTransform, chunk16_unchunk,
    cbcDecBlocks_cbcEncBlocks, unchunk_chunk16 _ (pad16_length_mod d), unpad_pad16]

/-- Value of one hexadecimal digit (0-9, a-f, A-F).
Modelled from the spec: the hexadecimal decoding used by `hex::decode`. -/
def hexDigitVal? (c : Char) : Option (Fin 16) :=
  if h1 : 48 ≤ c.toNat ∧ c.toNat ≤ 57 then some ⟨c.toNat - 48, by omega⟩
  else if h2 : 97 ≤ c.toNat ∧ c.toNat ≤ 102 then some ⟨c.toNat - 97 + 10, by omega⟩
  else if h3 : 65 ≤ c.toNat ∧ c.toNat ≤ 70 then some ⟨c.toNat - 65 + 10, by omega⟩
  else none

/-- A character is a hexadecimal digit (0-9, a-f, A-F). -/
def IsHexChar (c : Char) : Prop :=
  (48 ≤ c.toNat ∧ c.toNat ≤ 57) ∨ (97 ≤ c.toNat ∧ c.toNat ≤ 102) ∨
    (65 ≤ c.toNat ∧ c.toNat ≤ 70)

instance (c : Char) : Decidable (IsHexChar c) := by
  unfold IsHexChar
  infer_instance

theorem hexDigitVal?_isSome_iff (c : Char) : (hexDigitVal? c).isSome = true ↔ IsHexChar c := by
  unfold hexDigitVal? IsHexChar
  split_ifs with h1 h2 h3 <;> simp_all

theorem hexDigitVal?_eq_none_iff (c : Char) : hexDigitVal? c = none ↔ ¬ IsHexChar c := by
  rw [← hexDigitVal?_isSome_iff, ← Option.not_isSome_iff_eq_none]

/-- Decode a list of characters as hexadecimal byte pairs; an odd number of
digits or any non-hexadecimal character yields `none`.
Modelled from the spec: `hex::decode`, whose failures are a non-hex character
or an odd input length. -/
def hexPairs : List Char → Option (List Byte)
  | [] => some []
  | [_] => none
  | c1 :: c2 :: rest =>
    match hexDigitVal? c1, hexDigitVal? c2, hexPairs rest with
    | some hi, some lo, some bs =>
      some (⟨16 * hi.val + lo.val, by
        have h1 := hi.isLt
        have h2 := lo.isLt
        omega⟩ :: bs)
    | _, _, _ => none

/-- `hex::decode` on a Lean string. -/
def hexDecode (s : String) : Option (List Byte) := hexPairs s.data

theorem hexPairs_length : ∀ (l : List Char) (bs : List Byte),
    hexPairs l = some bs → 2 * bs.length = l.length
  | [], bs => by
    intro h
    simp only [hexPairs, Option.some.injEq] at h
    subst h
    rfl
  | [_], bs => by
    intro h
    simp [hexPairs] at h
  | c1 :: c2 :: rest, bs => by
    intro h
    simp only [hexPairs] at h
    cases hv1 : hexDigitVal? c1 with
    | none => rw [hv1] at h; simp at h
    | some hi =>
      cases hv2 : hexDigitVal? c2 with
      | none => rw [hv1, hv2] at h; simp at h
      | some lo =>
        cases hrest : hexPairs rest with
        | none => rw [hv1, hv2, hrest] at h; simp at h
        | some bs0 =>
          rw [hv1, hv2, hrest] at h
          simp only [Option.some.injEq] at h
          subst h
          have ih := hexPairs_length rest bs0 hrest
          simp only [List.length_cons]
          omega

theorem hexPairs_some_of_hex : ∀ l : List Char, (∀ c ∈ l, IsHexChar c) → l.length % 2 = 0 →
    ∃ bs, hexPairs l = some bs
  | [] => fun _ _ => ⟨[], rfl⟩
  | [c] => by
    intro _ hlen
    simp at hlen
  | c1 :: c2 :: rest => by
    intro hhex hlen
    have h1 : IsHexChar c1 := hhex c1 (by simp)
    have h2 : IsHexChar c2 := hhex c2 (by simp)
    have hrest : ∀ c ∈ rest, IsHexChar c := fun c hc => hhex c (by simp [hc])
    have hlenr : rest.length % 2 = 0 := by
      simp only [List.length_cons] at hlen
      omega
    obtain ⟨bs, hbs⟩ := hexPairs_some_of_hex rest hrest hlenr
    obtain ⟨v1, hv1⟩ := Option.isSome_iff_exists.mp ((hexDigitVal?_isSome_iff c1).mpr h1)
    obtain ⟨v2, hv2⟩ := Option.isSome_iff_exists.mp ((hexDigitVal?_isSome_iff c2).mpr h2)
    refine ⟨⟨16 * v1.val + v2.val, by
      have hb1 := v1.isLt
      have hb2 := v2.isLt
      omega⟩ :: bs, ?_⟩
    simp only [hexPairs, hv1, hv2, hbs]

theorem hexPairs_none_of_badchar : ∀ (l : List Char) (c : Char), c ∈ l → ¬ IsHexChar c →
    hexPairs l = none
  | [], c => by
    intro hc
    simp at hc
  | [c1], c => fun _ _ => rfl
  | c1 :: c2 :: rest, c => by
    intro hc hbad
    rcases List.mem_cons.mp hc with h | h
    · subst h
      have hv : hexDigitVal? c = none := (hexDigitVal?_eq_none_iff c).mpr hbad
      simp [hexPairs, hv]
    · rcases List.mem_cons.mp h with h2 | h2
      · subst h2
        have hv : hexDigitVal? c = none := (hexDigitVal?_eq_none_iff c).mpr hbad
        simp only [hexPairs, hv]
        cases hexDigitVal? c1 <;> rfl
      · have ih := hexPairs_none_of_badchar rest c h2 hbad
        simp only [hexPairs, ih]
        cases hexDigitVal? c1 <;> cases hexDigitVal? c2 <;> rfl

theorem hexPairs_none_of_odd : ∀ l : List Char, l.length % 2 = 1 → hexPairs l = none
  | [] => by
    intro h
    simp at h
  | [_] => fun _ => rfl
  | c1 :: c2 :: rest => by
    intro h
    have hr : rest.length % 2 = 1 := by
      simp only [List.length_cons] at h
      omega
    have ih := hexPairs_none_of_odd rest hr
    simp only [hexPairs, ih]
    cases hexDigitVal? c1 <;> cases hexDigitVal? c2 <;> rfl

/-- Lowercase hexadecimal digits, as produced by `hex::encode`. -/
def lowerHexDigits : List Char := "0123456789abcdef".data

def hexCharOf (n : Nat) : Char := lowerHexDigits.getD n '0'

def byteHex (b : Byte) : List Char := [hexCharOf (b.val / 16), hexCharOf (b.val % 16)]

def hexEncodeList : List Byte → List Char
  | [] => []
  | b :: bs => byteHex b ++ hexEncodeList bs

/-- `hex::encode` on a byte list: two lowercase hex digits per byte.
Modelled from the spec: generateKey / generateIV hex-encode the random bytes
to lowercase hex characters. -/
def hexEncode (bs : List Byte) : String := ⟨hexEncodeList bs⟩

/-- generate_random_key from src/main.rs, with the 32 drawn random bytes
passed explicitly. -/
def generate_random_key (draw : List Byte) : String := hexEncode draw

/-- generate_random_iv from src/main.rs, with the 16 drawn random bytes
passed explicitly. -/
def generate_random_iv (draw : List Byte) : String := hexEncode draw

theorem hexEncodeList_length : ∀ bs : List Byte, (hexEncodeList bs).length = 2 * bs.length
  | [] => rfl
  | b :: bs => by
    simp only [hexEncodeList, byteHex, List.length_append, List.length_cons,
      hexEncodeList_length bs]
    simp
    omega

theorem hexCharOf_mem : ∀ n : Nat, n < 16 → hexCharOf n ∈ lowerHexDigits := by decide

theorem hexEncodeList_mem : ∀ (bs : List Byte) (c : Char), c ∈ hexEncodeList bs →
    c ∈ lowerHexDigits
  | [], c => by
    intro h
    simp [hexEncodeList] at h
  | b :: bs, c => by
    intro h
    simp only [hexEncodeList, byteHex, List.mem_append, List.mem_cons] at h
    rcases h with (h | h | h) | h
    · subst h
      exact hexCharOf_mem _ (by have := b.isLt; omega)
    · subst h
      exact hexCharOf_mem _ (by have := b.isLt; omega)
    · simp at h
    · exact hexEncodeList_mem bs c h

/-- The characters of ".enc". -/
def encSuffix : List Char := ['.', 'e', 'n', 'c']

/-- Repeatedly strip a leading reversed ".enc" (that is, "cne.") from a
reversed path; this is `trim_end_matches(".enc")` seen from the right end. -/
def stripRevEnc : List Char → List Char
  | c1 :: c2 :: c3 :: c4 :: rest =>
    if c1 = 'c' ∧ c2 = 'n' ∧ c3 = 'e' ∧ c4 = '.' then stripRevEnc rest
    else c1 :: c2 :: c3 :: c4 :: rest
  | l => l

/-- Rust `str::trim_end_matches(".enc")`: remove every trailing ".enc",
repeatedly. -/
def trimEndMatchesEnc (l : List Char) : List Char := (stripRevEnc l.reverse).reverse

/-- Rust `str::rfind('.')`: position of the last '.' of the list, if any. -/
def rfindDot (l : List Char) : Option Nat :=
  match l.reverse.findIdx? (fun c => c == '.') with
  | some i => some (l.length - 1 - i)
  | none => none

/-- The split-at-last-dot step shared by all branches: insert "_decrypted"
before the last '.' of the remainder, or append it when there is no dot. -/
def dotRule (t : List Char) : List Char :=
  match rfindDot t with
  | some pos => t.take pos ++ "_decrypted".data ++ t.drop pos
  | none => t ++ "_decrypted".data

/-- Output-path derivation of decrypt_file (src/main.rs lines 257-267), at the
character-list level: if the path ends with ".enc", trim all trailing ".enc"
occurrences (Rust trim_end_matches removes the suffix repeatedly), then apply
the last-dot rule to the remainder; otherwise append "_decrypted". -/
def decOutPathList (p : List Char) : List Char :=
  if encSuffix.isSuffixOf p then dotRule (trimEndMatchesEnc p)
  else p ++ "_decrypted".data

/-- Output-path derivation of decrypt_file on strings. -/
def decOutPath (p : String) : String := ⟨decOutPathList p.data⟩

/-- The output-path rule exactly as claim C2 states it: strip exactly ONE
trailing ".enc" layer, then apply the last-dot rule.  This follows the claim
text, not the code; it is compared against `decOutPathList`. -/
def claimOneLayerOutPath (p : List Char) : List Char :=
  if encSuffix.isSuffixOf p then dotRule (p.take (p.length - 4))
  else p ++ "_decrypted".data

/-- The file system: a partial map from path strings to file contents. -/
def FS : Type := String → Option (List Byte)

/-- `std::fs::write`: create or truncate the file at a path. -/
def writeFS (fs : FS) (p : String) (d : List Byte) : FS :=
  fun q => if q = p then some d else fs q

/-- encrypt_file from src/main.rs (lines 236-247): decode the key, decode the
IV, build the cipher (checking the decoded lengths 32 and 16), read the file,
and encrypt.  Returns the ciphertext that is written, or the error string. -/
def encryptFileResult (fs : FS) (path key iv : String) : Except String (List Byte) :=
  match hexDecode key with
  | none => Except.error "Invalid key format"
  | some kb =>
    match hexDecode iv with
    | none => Except.error "Invalid IV format"
    | some ib =>
      if kb.length = 32 ∧ ib.length = 16 then
        match fs path with
        | none => Except.error "Failed to read file"
        | some data => Except.ok (encryptTransform kb ib data)
      else Except.error "Invalid key/IV length"

/-- The file system after encrypt_file: on success the ciphertext is written
to path ++ ".enc", on failure nothing is written. -/
def encryptFileFS (fs : FS) (path key iv : String) : FS :=
  match encryptFileResult fs path key iv with
  | Except.ok ct => writeFS fs (path ++ ".enc") ct
  | Except.error _ => fs

/-- decrypt_file from src/main.rs (lines 249-272): decode the key, decode the
IV, build the cipher, read the file, decrypt (CBC + PKCS#7 validation).
Returns the plaintext that is written, or the error string. -/
def decryptFileResult (fs : FS) (path key iv : String) : Except String (List Byte) :=
  match hexDecode key with
  | none => Except.error "Invalid key format"
  | some kb =>
    match hexDecode iv with
    | none => Except.error "Invalid IV format"
    | some ib =>
      if kb.length = 32 ∧ ib.length = 16 then
        match fs path with
        | none => Except.error "Failed to read file"
        | some data =>
          match decryptTransform kb ib data with
          | none => Except.error "Failed to decrypt file"
          | some pt => Except.ok pt
      else Except.error "Invalid key/IV length"

/-- The file system after decrypt_file: on success the plaintext is written
to the derived output path. -/
def decryptFileFS (fs : FS) (path key iv : String) : FS :=
  match decryptFileResult fs path key iv with
  | Except.ok pt => writeFS fs (decOutPath path) pt
  | Except.error _ => fs

/-- Possible outcomes of one `std::fs::write` call.
Modelled from the spec: the write may fail with FileWriteError, and no
temp-file/rename atomicity is provided — fs::write truncates the target
before writing, so a failure either leaves the file untouched (the create
itself failed) or leaves a created and truncated file holding only the first
n bytes of the data that got out before the fault. -/
inductive WriteOutcome where
  | ok
  | failNoChange
  | failTruncated (n : Nat)

/-- A write behavior: for each target path and data to be written, the
outcome of the fs::write call in this run. -/
def WB : Type := String → List Byte → WriteOutcome

/-- encrypt_file from src/main.rs (lines 236-247) including the write step of
line 244: the stages up to encryption are `encryptFileResult` (unchanged),
and the final fs::write is resolved by the given write behavior.  Returns the
Result of the whole call and the file system afterwards: on a write failure
the call errors with "Failed to write encrypted file" while the target may
already have been created, truncated or partially written. -/
def encryptFileW (wb : WB) (fs : FS) (path key iv : String) :
    Except String (List Byte) × FS :=
  match encryptFileResult fs path key iv with
  | Except.error e => (Except.error e, fs)
  | Except.ok ct =>
    match wb (path ++ ".enc") ct with
    | WriteOutcome.ok => (Except.ok ct, writeFS fs (path ++ ".enc") ct)
    | WriteOutcome.failNoChange => (Except.error "Failed to write encrypted file", fs)
    | WriteOutcome.failTruncated n =>
      (Except.error "Failed to write encrypted file", writeFS fs (path ++ ".enc") (ct.take n))

/-- The write behavior in which every write succeeds. -/
def wbOk : WB := fun _ _ => WriteOutcome.ok

/-- The write behavior in which every write fails right after truncating the
target (for instance, a full disk). -/
def wbTrunc0 : WB := fun _ _ => WriteOutcome.failTruncated 0

/-- truncate_middle from src/main.rs (lines 36-43). -/
def truncateMiddle (s : String) (maxLength : Nat) : String :=
  if s.length ≤ maxLength then s
  else ⟨s.data.take (maxLength / 2) ++ "....".data ++ s.data.drop (s.data.length - maxLength / 2)⟩

/-- The application state of FileEncryptionTool. -/
structure AppState where
  file_path : String
  key : String
  iv : String
  status_message : String
  dark_mode : Bool
deriving DecidableEq

/-- The Message enum of src/main.rs.  External inputs that the real handlers
obtain from the environment (the picked file of the rfd dialog, the random
bytes of thread_rng) are carried as constructor arguments. -/
inductive Msg where
  | filePathChanged (s : String)
  | keyChanged (s : String)
  | ivChanged (s : String)
  | encryptFile
  | decryptFile
  | selectFile (picked : Option String)
  | generateKey (draw : List Byte)
  | generateIv (draw : List Byte)
  | copyKeyToClipboard
  | copyIvToClipboard
  | toggleTheme

/-- The update function of src/main.rs (lines 76-148).  Returns the new
state, the new file system, and the clipboard command (Some text for
clipboard::write, none for Command::none). -/
def update (st : AppState) (fs : FS) : Msg → AppState × FS × Option String
  | Msg.toggleTheme =>
    (⟨st.file_path, st.key, st.iv, st.status_message, !st.dark_mode⟩, fs, none)
  | Msg.filePathChanged s =>
    (⟨s, st.key, st.iv, st.status_message, st.dark_mode⟩, fs, none)
  | Msg.keyChanged s =>
    (⟨st.file_path, s, st.iv, st.status_message, st.dark_mode⟩, fs, none)
  | Msg.ivChanged s =>
    (⟨st.file_path, st.key, s, st.status_message, st.dark_mode⟩, fs, none)
  | Msg.encryptFile =>
    if st.file_path.isEmpty || st.key.isEmpty || st.iv.isEmpty then
      (⟨st.file_path, st.key, st.iv, "Please enter all fields (file path, key, and IV).",
        st.dark_mode⟩, fs, none)
    else
      match encryptFileResult fs st.file_path st.key st.iv with
      | Except.error e =>
        (⟨st.file_path, st.key, st.iv, "Encryption failed: " ++ e, st.dark_mode⟩, fs, none)
      | Except.ok ct =>
        (⟨st.file_path, st.key, st.iv, "File successfully encrypted.", st.dark_mode⟩,
          writeFS fs (st.file_path ++ ".enc") ct, none)
  | Msg.decryptFile =>
    if st.file_path.isEmpty || st.key.isEmpty || st.iv.isEmpty then
      (⟨st.file_path, st.key, st.iv, "Please enter file path, key, and IV.", st.dark_mode⟩,
        fs, none)
    else
      match decryptFileResult fs st.file_path st.key st.iv with
      | Except.error e =>
        (⟨st.file_path, st.key, st.iv, "Decryption failed: " ++ e, st.dark_mode⟩, fs, none)
      | Except.ok pt =>
        (⟨st.file_path, st.key, st.iv, "File successfully decrypted.", st.dark_mode⟩,
          writeFS fs (decOutPath st.file_path) pt, none)
  | Msg.selectFile (some path) =>
    (⟨path, st.key, st.iv, "File selected: " ++ (truncateMiddle path 36), st.dark_mode⟩,
      fs, none)
  | Msg.selectFile none =>
    (⟨st.file_path, st.key, st.iv, "No file selected.", st.dark_mode⟩, fs, none)
  | Msg.generateKey draw =>
    (⟨st.file_path, generate_random_key draw, st.iv,
      "Key generated. Make sure to save it somewhere!", st.dark_mode⟩, fs, none)
  | Msg.generateIv draw =>
    (⟨st.file_path, st.key, generate_random_iv draw,
      "IV generated. Make sure to save it somewhere!", st.dark_mode⟩, fs, none)
  | Msg.copyKeyToClipboard =>
    if st.key.isEmpty then
      (⟨st.file_path, st.key, st.iv, "Key field is empty, nothing to copy.", st.dark_mode⟩,
        fs, none)
    else
      (⟨st.file_path, st.key, st.iv, "Key has been copied.", st.dark_mode⟩, fs, some st.key)
  | Msg.copyIvToClipboard =>
    if st.iv.isEmpty then
      (⟨st.file_path, st.key, st.iv, "IV field is empty, nothing to copy.", st.dark_mode⟩,
        fs, none)
    else
      (⟨st.file_path, st.key, st.iv, "IV has been copied.", st.dark_mode⟩, fs, some st.iv)

/-- Strip ALL trailing ".enc" layers, phrased as the amended claim C2 words
it: while the path ends with ".enc", drop its last four characters. -/
def stripAllEnc (l : List Char) : List Char :=
  if h : encSuffix.isSuffixOf l = true then stripAllEnc (l.take (l.length - 4)) else l
termination_by l.length
decreasing_by
  have hs : encSuffix <:+ l := List.isSuffixOf_iff_suffix.mp h
  have hle := hs.length_le
  simp only [List.length_take, encSuffix, List.length_cons] at hle ⊢
  omega

/-- The output-path rule of the amended claim C2: strip all trailing ".enc"
layers, then apply the last-dot rule; append "_decrypted" when the path does
not end in ".enc". -/
def specAllLayersOutPath (p : List Char) : List Char :=
  if encSuffix.isSuffixOf p then dotRule (stripAllEnc p)
  else p ++ "_decrypted".data

theorem stripRevEnc_four (r : List Char) :
    stripRevEnc ('c' :: 'n' :: 'e' :: '.' :: r) = stripRevEnc r := by
  simp [stripRevEnc]

theorem stripRevEnc_eq_self (r : List Char)
    (h : ∀ rest, r ≠ 'c' :: 'n' :: 'e' :: '.' :: rest) : stripRevEnc r = r := by
  match r with
  | [] => rfl
  | [c1] => rfl
  | [c1, c2] => rfl
  | [c1, c2, c3] => rfl
  | c1 :: c2 :: c3 :: c4 :: rest =>
    show (if c1 = 'c' ∧ c2 = 'n' ∧ c3 = 'e' ∧ c4 = '.' then stripRevEnc rest
      else c1 :: c2 :: c3 :: c4 :: rest) = c1 :: c2 :: c3 :: c4 :: rest
    rw [if_neg]
    rintro ⟨h1, h2, h3, h4⟩
    exact h rest (by rw [h1, h2, h3, h4])

theorem suffix_reverse_shape (p t : List Char) (ht : t ++ encSuffix = p) :
    p.reverse = 'c' :: 'n' :: 'e' :: '.' :: t.reverse := by
  rw [← ht, List.reverse_append]
  rfl

theorem trimEndMatchesEnc_step (p t : List Char) (ht : t ++ encSuffix = p) :
    trimEndMatchesEnc p = trimEndMatchesEnc t := by
  unfold trimEndMatchesEnc
  rw [suffix_reverse_shape p t ht, stripRevEnc_four]

theorem trimEndMatchesEnc_eq_self (p : List Char) (h : ¬ encSuffix.isSuffixOf p = true) :
    trimEndMatchesEnc p = p := by
  unfold trimEndMatchesEnc
  rw [stripRevEnc_eq_self, List.reverse_reverse]
  intro rest heq
  apply h
  rw [List.isSuffixOf_iff_suffix]
  refine ⟨rest.reverse, ?_⟩
  have := congrArg List.reverse heq
  rw [List.reverse_reverse] at this
  rw [this, List.reverse_cons, List.reverse_cons, List.reverse_cons, List.reverse_cons]
  simp [encSuffix]

theorem take_append_encSuffix (t : List Char) :
    (t ++ encSuffix).take ((t ++ encSuffix).length - 4) = t := by
  apply List.take_left'
  simp [encSuffix]

/-- Rust trim_end_matches(".enc") equals the take-four-at-a-time stripping of
all trailing ".enc" layers. -/
theorem trimEndMatchesEnc_eq_stripAllEnc (p : List Char) :
    trimEndMatchesEnc p = stripAllEnc p := by
  rw [stripAllEnc]
  by_cases h : encSuffix.isSuffixOf p = true
  · obtain ⟨t, ht⟩ := List.isSuffixOf_iff_suffix.mp h
    rw [dif_pos h]
    have htake : p.take (p.length - 4) = t := by
      rw [← ht]
      exact take_append_encSuffix t
    rw [htake, trimEndMatchesEnc_step p t ht]
    exact trimEndMatchesEnc_eq_stripAllEnc t
  · rw [dif_neg h]
    exact trimEndMatchesEnc_eq_self p h
termination_by p.length
decreasing_by
  rw [← ht]
  simp [encSuffix]

/-- Malformed PKCS#7 padding, as claim C5 words it: no final byte at all, or
the final byte n is zero or larger than 16 or larger than the length, or one
of the last n bytes differs from n. -/
def PadMalformed (l : List Byte) : Prop :=
  ∀ b : Byte, l.getLast? = some b →
    b.val = 0 ∨ 16 < b.val ∨ l.length < b.val ∨ ∃ x ∈ l.drop (l.length - b.val), x ≠ b

theorem unpad_last (l : List Byte) (b : Byte) (hl : l.getLast? = some b) :
    unpad l = if 1 ≤ b.val ∧ b.val ≤ 16 ∧ b.val ≤ l.length ∧
        (l.drop (l.length - b.val)).all (fun x => x == b) = true then
      some (l.take (l.length - b.val)) else none := by
  rw [unpad, hl]

theorem unpad_nil_of_getLast (l : List Byte) (hl : l.getLast? = none) : unpad l = none := by
  rw [unpad, hl]

theorem unpad_none_iff (l : List Byte) : unpad l = none ↔ PadMalformed l := by
  unfold PadMalformed
  cases hl : l.getLast? with
  | none =>
    constructor
    · intro _ b hb
      exact Option.noConfusion hb
    · intro _
      exact unpad_nil_of_getLast l hl
  | some b =>
    rw [unpad_last l b hl]
    have hcond : (1 ≤ b.val ∧ b.val ≤ 16 ∧ b.val ≤ l.length ∧
        (l.drop (l.length - b.val)).all (fun x => x == b) = true) ↔
        ¬ (b.val = 0 ∨ 16 < b.val ∨ l.length < b.val ∨
          ∃ x ∈ l.drop (l.length - b.val), x ≠ b) := by
      rw [List.all_eq_true]
      constructor
      · rintro ⟨h1, h2, h3, h4⟩ (h | h | h | ⟨x, hx, hxb⟩)
        · omega
        · omega
        · omega
        · exact hxb (by simpa using h4 x hx)
      · intro hn
        push_neg at hn
        obtain ⟨h1, h2, h3, h4⟩ := hn
        exact ⟨by omega, by omega, by omega, fun x hx => by simp [h4 x hx]⟩
    constructor
    · intro h b' hb'
      injection hb' with hb'
      subst hb'
      by_contra hcon
      rw [if_pos (hcond.mpr hcon)] at h
      exact Option.noConfusion h
    · intro hd
      rw [if_neg]
      intro hc
      exact (hcond.mp hc) (hd b rfl)

theorem cbcDecryptBytes_nil (kb ib : List Byte) : cbcDecryptBytes kb ib [] = [] := rfl

theorem decryptTransform_none_iff (kb ib ct : List Byte) :
    decryptTransform kb ib ct = none ↔
      (ct = [] ∨ ct.length % 16 ≠ 0 ∨ PadMalformed (cbcDecryptBytes kb ib ct)) := by
  unfold decryptTransform
  by_cases hm : ct.length % 16 = 0
  · rw [if_pos hm, unpad_none_iff]
    constructor
    · intro h
      exact Or.inr (Or.inr h)
    · rintro (h | h | h)
      · subst h
        rw [cbcDecryptBytes_nil]
        intro b hb
        cases hb
      · exact absurd hm h
      · exact h
  · rw [if_neg hm]
    constructor
    · intro _
      exact Or.inr (Or.inl hm)
    · intro _
      rfl

/-- A 64-character all-zero hex key string. -/
def key64 : String := "0000000000000000000000000000000000000000000000000000000000000000"

/-- A 63-character (odd length) all-zero hex key string. -/
def key63 : String := "000000000000000000000000000000000000000000000000000000000000000"

/-- A 62-character (even length, not 64) all-zero hex key string. -/
def key62 : String := "00000000000000000000000000000000000000000000000000000000000000"

/-- A 32-character all-zero hex IV string. -/
def iv32 : String := "00000000000000000000000000000000"

/-- The empty file system. -/
def emptyFS : FS := fun _ => none

/-- A file system holding one empty file at "f". -/
def fsA : FS := fun q => if q = "f" then some [] else none

/-- A file system holding an empty file at "f" and a one-byte file at
"f.enc". -/
def fsB : FS := fun q => if q = "f" then some [] else if q = "f.enc" then some [0] else none

theorem writeFS_eq (fs : FS) (p : String) (d : List Byte) : writeFS fs p d p = some d := by
  simp [writeFS]

theorem writeFS_ne (fs : FS) (p : String) (d : List Byte) (q : String) (h : q ≠ p) :
    writeFS fs p d q = fs q := by
  simp [writeFS, h]

theorem encryptFileFS_ok (fs : FS) (p key iv : String) (ct : List Byte)
    (h : encryptFileResult fs p key iv = Except.ok ct) :
    encryptFileFS fs p key iv = writeFS fs (p ++ ".enc") ct := by
  unfold encryptFileFS
  rw [h]

theorem encryptFileFS_error (fs : FS) (p key iv e : String)
    (h : encryptFileResult fs p key iv = Except.error e) :
    encryptFileFS fs p key iv = fs := by
  unfold encryptFileFS
  rw [h]

theorem encryptFileResult_keyfmt (fs : FS) (p key iv : String)
    (hk : hexDecode key = none) :
    encryptFileResult fs p key iv = Except.error "Invalid key format" := by
  simp only [encryptFileResult, hk]

theorem decryptFileResult_keyfmt (fs : FS) (p key iv : String)
    (hk : hexDecode key = none) :
    decryptFileResult fs p key iv = Except.error "Invalid key format" := by
  simp only [decryptFileResult, hk]

theorem encryptFileResult_badlen (fs : FS) (p key iv : String) (kb ib : List Byte)
    (hk : hexDecode key = some kb) (hi : hexDecode iv = some ib)
    (hcond : ¬ (kb.length = 32 ∧ ib.length = 16)) :
    encryptFileResult fs p key iv = Except.error "Invalid key/IV length" := by
  simp only [encryptFileResult, hk, hi]
  rw [if_neg hcond]

theorem decryptFileResult_badlen (fs : FS) (p key iv : String) (kb ib : List Byte)
    (hk : hexDecode key = some kb) (hi : hexDecode iv = some ib)
    (hcond : ¬ (kb.length = 32 ∧ ib.length = 16)) :
    decryptFileResult fs p key iv = Except.error "Invalid key/IV length" := by
  simp only [decryptFileResult, hk, hi]
  rw [if_neg hcond]

/-- C1: for every key string that hex-decodes to exactly 32 bytes, every IV
string that hex-decodes to exactly 16 bytes, and every plaintext byte sequence
(including the empty one), the decrypt transform of decrypt_file applied with
the same key and IV to the output of the encrypt transform of encrypt_file
yields exactly the original plaintext bytes. -/
theorem c1_roundtrip (keyHex ivHex : String) (kb ib d : List Byte)
    (hk : hexDecode keyHex = some kb) (hk32 : kb.length = 32)
    (hi : hexDecode ivHex = some ib) (hi16 : ib.length = 16) :
    decryptTransform kb ib (encryptTransform kb ib d) = some d :=
  decryptTransform_encryptTransform kb ib d

theorem c1_roundtrip_witness :
    decryptTransform (List.replicate 32 0) (List.replicate 16 0)
      (encryptTransform (List.replicate 32 0) (List.replicate 16 0)
        [104, 101, 108, 108, 111]) = some [104, 101, 108, 108, 111] :=
  c1_roundtrip key64 iv32 (List.replicate 32 0) (List.replicate 16 0)
    [104, 101, 108, 108, 111] (by decide) (by decide) (by decide) (by decide)

/-- C2 counterexample: the claim's one-layer rule gives "file_decrypted.enc"
for the path "file.enc.enc", but the code (trim_end_matches removes the
suffix repeatedly) strips BOTH ".enc" layers and derives "file_decrypted". -/
theorem c2_counterexample :
    decOutPath "file.enc.enc" = "file_decrypted" ∧
    claimOneLayerOutPath ("file.enc.enc").data = ("file_decrypted.enc").data ∧
    ("file_decrypted" : String) ≠ "file_decrypted.enc" := by
  refine ⟨by decide, by decide, by decide⟩

/-- C2 amended: the derived output path strips ALL trailing ".enc" layers and
then applies the last-dot rule (insert "_decrypted" before the last dot of the
remainder, or append it if the remainder has no dot); a path without the
".enc" suffix gets "_decrypted" appended.  The code's derivation equals this
all-layers rule on every path. -/
theorem c2_amended_all_layers (p : String) :
    decOutPath p = String.mk (specAllLayersOutPath p.data) := by
  unfold decOutPath decOutPathList specAllLayersOutPath
  rw [trimEndMatchesEnc_eq_stripAllEnc]

/-- C3 counterexample: a 63-character all-hex key (odd length) is rejected by
hex decoding itself, so both operations fail with "Invalid key format", not
with "Invalid key/IV length" as the claim states for every length other than
64. -/
theorem c3_counterexample :
    encryptFileResult emptyFS "f" key63 iv32 = Except.error "Invalid key format" ∧
    decryptFileResult emptyFS "f" key63 iv32 = Except.error "Invalid key format" ∧
    "Invalid key format" ≠ "Invalid key/IV length" := by
  refine ⟨rfl, rfl, by decide⟩

/-- C3 amended: a key string of even length different from 64 consisting of
valid hex characters yields the InvalidKeyOrIvLength error (given any IV that
itself decodes); a key string of odd length, or one containing a non-hex
character, is rejected by hex decoding first and yields the InvalidKeyFormat
error. -/
theorem c3_amended (fs : FS) (p key iv : String) :
    ((∀ c ∈ key.data, IsHexChar c) → key.length % 2 = 0 → key.length ≠ 64 →
      (hexDecode iv).isSome = true →
      encryptFileResult fs p key iv = Except.error "Invalid key/IV length" ∧
      decryptFileResult fs p key iv = Except.error "Invalid key/IV length") ∧
    ((∃ c ∈ key.data, ¬ IsHexChar c) →
      encryptFileResult fs p key iv = Except.error "Invalid key format" ∧
      decryptFileResult fs p key iv = Except.error "Invalid key format") ∧
    (key.length % 2 = 1 →
      encryptFileResult fs p key iv = Except.error "Invalid key format" ∧
      decryptFileResult fs p key iv = Except.error "Invalid key format") := by
  refine ⟨?_, ?_, ?_⟩
  · intro hhex heven hne hiv
    have hlen : key.data.length = key.length := rfl
    obtain ⟨kb, hkb⟩ := hexPairs_some_of_hex key.data hhex (by rw [hlen]; exact heven)
    have hkl := hexPairs_length key.data kb hkb
    obtain ⟨ib, hib⟩ := Option.isSome_iff_exists.mp hiv
    have hcond : ¬ (kb.length = 32 ∧ ib.length = 16) := by
      rintro ⟨h32, _⟩
      rw [hlen] at hkl
      omega
    exact ⟨encryptFileResult_badlen fs p key iv kb ib hkb hib hcond,
      decryptFileResult_badlen fs p key iv kb ib hkb hib hcond⟩
  · rintro ⟨c, hc, hbad⟩
    have h : hexDecode key = none := hexPairs_none_of_badchar key.data c hc hbad
    exact ⟨encryptFileResult_keyfmt fs p key iv h, decryptFileResult_keyfmt fs p key iv h⟩
  · intro hodd
    have hlen : key.data.length = key.length := rfl
    have h : hexDecode key = none := hexPairs_none_of_odd key.data (by rw [hlen]; exact hodd)
    exact ⟨encryptFileResult_keyfmt fs p key iv h, decryptFileResult_keyfmt fs p key iv h⟩

theorem c3_amended_witness :
    encryptFileResult emptyFS "f" key62 iv32 = Except.error "Invalid key/IV length" ∧
    encryptFileResult emptyFS "f" "zz" iv32 = Except.error "Invalid key format" ∧
    decryptFileResult emptyFS "f" key63 iv32 = Except.error "Invalid key format" :=
  ⟨((c3_amended emptyFS "f" key62 iv32).1 (by decide) (by decide) (by decide) (by decide)).1,
   ((c3_amended emptyFS "f" "zz" iv32).2.1 ⟨'z', by decide⟩).1,
   ((c3_amended emptyFS "f" key63 iv32).2.2 (by decide)).2⟩

/-- C4: for every plaintext of length L the ciphertext of the encrypt
transform has length L + (16 - L mod 16) when L mod 16 is nonzero and L + 16
when L mod 16 is zero; the ciphertext length is always a multiple of 16 and
strictly greater than L. -/
theorem c4_ciphertext_length (key iv d : List Byte) :
    (encryptTransform key iv d).length =
      (if d.length % 16 = 0 then d.length + 16 else d.length + (16 - d.length % 16)) ∧
    (encryptTransform key iv d).length % 16 = 0 ∧
    d.length < (encryptTransform key iv d).length := by
  have h := encryptTransform_length key iv d
  refine ⟨?_, ?_, ?_⟩
  · rw [h]
    split <;> omega
  · rw [h]
    omega
  · rw [h]
    omega

/-- C5: with a valid 32-byte key, a valid 16-byte IV and a readable input,
decrypt_file returns the DecryptionError "Failed to decrypt file" exactly when
the ciphertext is empty, or its length is not a multiple of 16, or the PKCS#7
padding of the CBC-decrypted bytes is malformed; in every other case the
decrypt transform succeeds. -/
theorem c5_decrypt_error_iff (fs : FS) (p keyHex ivHex : String) (kb ib ct : List Byte)
    (hk : hexDecode keyHex = some kb) (hk32 : kb.length = 32)
    (hi : hexDecode ivHex = some ib) (hi16 : ib.length = 16)
    (hread : fs p = some ct) :
    (decryptFileResult fs p keyHex ivHex = Except.error "Failed to decrypt file" ↔
      (ct = [] ∨ ct.length % 16 ≠ 0 ∨ PadMalformed (cbcDecryptBytes kb ib ct))) := by
  rw [← decryptTransform_none_iff]
  simp only [decryptFileResult, hk, hi, hread]
  rw [if_pos ⟨hk32, hi16⟩]
  cases hdt : decryptTransform kb ib ct with
  | none => simp
  | some pt => simp

theorem c5_decrypt_error_iff_witness :
    decryptFileResult fsA "f" key64 iv32 = Except.error "Failed to decrypt file" :=
  (c5_decrypt_error_iff fsA "f" key64 iv32 (List.replicate 32 0) (List.replicate 16 0) []
    (by decide) (by decide) (by decide) (by decide) rfl).mpr (Or.inl rfl)

/-- C6: encrypt_file writes its ciphertext to exactly the path
file_path ++ ".enc" (always appended, so repeated encryption accumulates
extensions), and never writes to file_path itself; every path other than
file_path ++ ".enc" is untouched. -/
theorem c6_encrypt_output_path (fs : FS) (p key iv : String) :
    p ++ ".enc" ≠ p ∧
    (∀ q : String, q ≠ p ++ ".enc" → encryptFileFS fs p key iv q = fs q) ∧
    ((encryptFileResult fs p key iv).isOk = true →
      ∃ ct, encryptFileResult fs p key iv = Except.ok ct ∧
        encryptFileFS fs p key iv (p ++ ".enc") = some ct) := by
  refine ⟨?_, ?_, ?_⟩
  · intro heq
    have hl := congrArg String.length heq
    rw [String.length_append] at hl
    have h4 : (".enc" : String).length = 4 := rfl
    omega
  · intro q hq
    cases hres : encryptFileResult fs p key iv with
    | error e => rw [encryptFileFS_error fs p key iv e hres]
    | ok ct =>
      rw [encryptFileFS_ok fs p key iv ct hres]
      exact writeFS_ne fs (p ++ ".enc") ct q hq
  · intro hok
    cases hres : encryptFileResult fs p key iv with
    | error e =>
      rw [hres] at hok
      simp [Except.isOk, Except.toBool] at hok
    | ok ct =>
      refine ⟨ct, rfl, ?_⟩
      rw [encryptFileFS_ok fs p key iv ct hres]
      exact writeFS_eq fs (p ++ ".enc") ct

theorem c6_encrypt_output_path_witness :
    ("f" ++ ".enc" ≠ "f") ∧
    encryptFileFS fsA "f" key64 iv32 "x" = fsA "x" ∧
    (∃ ct, encryptFileResult fsA "f" key64 iv32 = Except.ok ct ∧
      encryptFileFS fsA "f" key64 iv32 ("f" ++ ".enc") = some ct) :=
  ⟨(c6_encrypt_output_path fsA "f" key64 iv32).1,
   (c6_encrypt_output_path fsA "f" key64 iv32).2.1 "x" (by decide),
   (c6_encrypt_output_path fsA "f" key64 iv32).2.2 (by decide)⟩

/-- C7: for every random draw, generate_random_key returns a string of exactly
64 lowercase hexadecimal characters (hex encoding of its 32 random bytes) and
generate_random_iv returns a string of exactly 32 lowercase hexadecimal
characters (hex encoding of its 16 random bytes). -/
theorem c7_generate_lengths (drawK drawI : List Byte) :
    (drawK.length = 32 →
      (generate_random_key drawK).length = 64 ∧
      ∀ c ∈ (generate_random_key drawK).data, c ∈ lowerHexDigits) ∧
    (drawI.length = 16 →
      (generate_random_iv drawI).length = 32 ∧
      ∀ c ∈ (generate_random_iv drawI).data, c ∈ lowerHexDigits) := by
  constructor
  · intro h32
    refine ⟨?_, ?_⟩
    · show (hexEncodeList drawK).length = 64
      rw [hexEncodeList_length, h32]
    · intro c hc
      exact hexEncodeList_mem drawK c hc
  · intro h16
    refine ⟨?_, ?_⟩
    · show (hexEncodeList drawI).length = 32
      rw [hexEncodeList_length, h16]
    · intro c hc
      exact hexEncodeList_mem drawI c hc

theorem c7_generate_lengths_witness :
    (generate_random_key (List.replicate 32 0)).length = 64 ∧
    (generate_random_iv (List.replicate 16 0)).length = 32 :=
  ⟨((c7_generate_lengths (List.replicate 32 0) (List.replicate 16 0)).1 (by decide)).1,
   ((c7_generate_lengths (List.replicate 32 0) (List.replicate 16 0)).2 (by decide)).1⟩

theorem encryptFileW_error (wb : WB) (fs : FS) (p key iv e : String)
    (h : encryptFileResult fs p key iv = Except.error e) :
    encryptFileW wb fs p key iv = (Except.error e, fs) := by
  unfold encryptFileW
  rw [h]

theorem encryptFileW_write_ok (wb : WB) (fs : FS) (p key iv : String) (ct : List Byte)
    (h : encryptFileResult fs p key iv = Except.ok ct)
    (hwb : wb (p ++ ".enc") ct = WriteOutcome.ok) :
    encryptFileW wb fs p key iv = (Except.ok ct, writeFS fs (p ++ ".enc") ct) := by
  simp only [encryptFileW, h, hwb]

theorem encryptFileW_write_failNoChange (wb : WB) (fs : FS) (p key iv : String)
    (ct : List Byte) (h : encryptFileResult fs p key iv = Except.ok ct)
    (hwb : wb (p ++ ".enc") ct = WriteOutcome.failNoChange) :
    encryptFileW wb fs p key iv = (Except.error "Failed to write encrypted file", fs) := by
  simp only [encryptFileW, h, hwb]

theorem encryptFileW_write_failTruncated (wb : WB) (fs : FS) (p key iv : String)
    (ct : List Byte) (n : Nat) (h : encryptFileResult fs p key iv = Except.ok ct)
    (hwb : wb (p ++ ".enc") ct = WriteOutcome.failTruncated n) :
    encryptFileW wb fs p key iv =
      (Except.error "Failed to write encrypted file", writeFS fs (p ++ ".enc") (ct.take n)) := by
  simp only [encryptFileW, h, hwb]

/-- C8 counterexample: when the target path file_path ++ ".enc" already
exists, a successful encrypt_file call creates NO new file: it overwrites the
existing one (changing the contents of an existing file), while every path
that had no file before still has none afterwards.  Moreover, a run whose
fs::write fails after truncating the target errors while still changing the
contents of that existing file, so "on any error, no existing file's contents
are changed" also fails. -/
theorem c8_counterexample :
    (encryptFileW wbOk fsB "f" key64 iv32).1.isOk = true ∧
    fsB "f.enc" = some [0] ∧
    (encryptFileW wbOk fsB "f" key64 iv32).2 "f.enc" ≠ fsB "f.enc" ∧
    (∀ q : String, fsB q = none → (encryptFileW wbOk fsB "f" key64 iv32).2 q = none) ∧
    (encryptFileW wbTrunc0 fsB "f" key64 iv32).1 =
      Except.error "Failed to write encrypted file" ∧
    (encryptFileW wbTrunc0 fsB "f" key64 iv32).2 "f.enc" ≠ fsB "f.enc" := by
  have hres : encryptFileResult fsB "f" key64 iv32 =
      Except.ok (encryptTransform (List.replicate 32 0) (List.replicate 16 0) []) := rfl
  have hWok : encryptFileW wbOk fsB "f" key64 iv32 =
      (Except.ok (encryptTransform (List.replicate 32 0) (List.replicate 16 0) []),
        writeFS fsB ("f" ++ ".enc")
          (encryptTransform (List.replicate 32 0) (List.replicate 16 0) [])) :=
    encryptFileW_write_ok wbOk fsB "f" key64 iv32 _ hres rfl
  have hWfail : encryptFileW wbTrunc0 fsB "f" key64 iv32 =
      (Except.error "Failed to write encrypted file",
        writeFS fsB ("f" ++ ".enc")
          ((encryptTransform (List.replicate 32 0) (List.replicate 16 0) []).take 0)) :=
    encryptFileW_write_failTruncated wbTrunc0 fsB "f" key64 iv32 _ 0 hres rfl
  have h2ok : (encryptFileW wbOk fsB "f" key64 iv32).2 =
      writeFS fsB ("f" ++ ".enc")
        (encryptTransform (List.replicate 32 0) (List.replicate 16 0) []) := by
    rw [hWok]
  have h2fail : (encryptFileW wbTrunc0 fsB "f" key64 iv32).2 =
      writeFS fsB ("f" ++ ".enc")
        ((encryptTransform (List.replicate 32 0) (List.replicate 16 0) []).take 0) := by
    rw [hWfail]
  have heqp : ("f.enc" : String) = "f" ++ ".enc" := by decide
  have hB : fsB ("f" ++ ".enc") = some [0] := by decide
  refine ⟨by rw [hWok]; rfl, rfl, ?_, ?_, by rw [hWfail], ?_⟩
  · rw [h2ok, heqp, writeFS_eq]
    intro h
    rw [hB] at h
    injection h with h
    have hlen := encryptTransform_length (List.replicate 32 0) (List.replicate 16 0) []
    rw [h] at hlen
    simp at hlen
  · intro q hq
    rw [h2ok]
    by_cases hq2 : q = "f" ++ ".enc"
    · subst hq2
      exact absurd hq (by decide)
    · rw [writeFS_ne _ _ _ q hq2]
      exact hq
  · rw [h2fail, heqp, writeFS_eq, hB]
    simp

/-- C8 amended: a successful encrypt_file call writes exactly one path,
file_path ++ ".enc" (creating the file there if absent and replacing its
contents if present), and neither deletes nor modifies the input file at
file_path; on an error, every path other than file_path ++ ".enc" — in
particular the input file — is unchanged, an error raised before the write
attempt (invalid key or IV, unreadable input) changes no file at all, and
only a failed write may leave the target itself created, truncated or
partially written. -/
theorem c8_amended_frame (wb : WB) (fs : FS) (p key iv : String) :
    (∀ q : String, q ≠ p ++ ".enc" → (encryptFileW wb fs p key iv).2 q = fs q) ∧
    (encryptFileW wb fs p key iv).2 p = fs p ∧
    (∀ ct, (encryptFileW wb fs p key iv).1 = Except.ok ct →
      (encryptFileW wb fs p key iv).2 (p ++ ".enc") = some ct) ∧
    (∀ e, (encryptFileW wb fs p key iv).1 = Except.error e →
      e ≠ "Failed to write encrypted file" → (encryptFileW wb fs p key iv).2 = fs) := by
  have hne : p ≠ p ++ ".enc" := by
    intro heq
    have hl := congrArg String.length heq
    rw [String.length_append] at hl
    have h4 : (".enc" : String).length = 4 := rfl
    omega
  cases hres : encryptFileResult fs p key iv with
  | error e0 =>
    rw [encryptFileW_error wb fs p key iv e0 hres]
    refine ⟨fun q _ => rfl, rfl, fun ct hct => Except.noConfusion hct, fun e _ _ => rfl⟩
  | ok ct0 =>
    cases hwb : wb (p ++ ".enc") ct0 with
    | ok =>
      rw [encryptFileW_write_ok wb fs p key iv ct0 hres hwb]
      refine ⟨fun q hq => writeFS_ne _ _ _ q hq, writeFS_ne _ _ _ p hne, ?_, ?_⟩
      · intro ct hct
        injection hct with hct
        subst hct
        exact writeFS_eq _ _ _
      · intro e he
        exact absurd he (fun h => Except.noConfusion h)
    | failNoChange =>
      rw [encryptFileW_write_failNoChange wb fs p key iv ct0 hres hwb]
      refine ⟨fun q _ => rfl, rfl, fun ct hct => Except.noConfusion hct, ?_⟩
      intro e he hne'
      injection he with he
      exact absurd he.symm hne'
    | failTruncated n =>
      rw [encryptFileW_write_failTruncated wb fs p key iv ct0 n hres hwb]
      refine ⟨fun q hq => writeFS_ne _ _ _ q hq, writeFS_ne _ _ _ p hne,
        fun ct hct => Except.noConfusion hct, ?_⟩
      intro e he hne'
      injection he with he
      exact absurd he.symm hne'

theorem c8_amended_frame_witness :
    (encryptFileW wbOk fsA "f" key64 iv32).2 "x" = fsA "x" ∧
    (encryptFileW wbOk fsA "f" key64 iv32).2 "f" = fsA "f" ∧
    (encryptFileW wbOk fsA "f" key64 iv32).2 ("f" ++ ".enc") =
      some (encryptTransform (List.replicate 32 0) (List.replicate 16 0) []) ∧
    (encryptFileW wbOk emptyFS "f" "zz" iv32).2 = emptyFS :=
  ⟨(c8_amended_frame wbOk fsA "f" key64 iv32).1 "x" (by decide),
   (c8_amended_frame wbOk fsA "f" key64 iv32).2.1,
   (c8_amended_frame wbOk fsA "f" key64 iv32).2.2.1
     (encryptTransform (List.replicate 32 0) (List.replicate 16 0) []) rfl,
   (c8_amended_frame wbOk emptyFS "f" "zz" iv32).2.2.2 "Invalid key format" rfl (by decide)⟩

/-- C9: whenever file_path, key or iv is empty, dispatching EncryptFile or
DecryptFile through update only sets the status message to the
fill-all-fields text: the file system is untouched (no decoding, cipher
construction or file operation happens) and file_path, key, iv and dark_mode
keep their values. -/
theorem c9_empty_fields (st : AppState) (fs : FS)
    (h : st.file_path = "" ∨ st.key = "" ∨ st.iv = "") :
    update st fs Msg.encryptFile =
      (⟨st.file_path, st.key, st.iv,
        "Please enter all fields (file path, key, and IV).", st.dark_mode⟩, fs, none) ∧
    update st fs Msg.decryptFile =
      (⟨st.file_path, st.key, st.iv, "Please enter file path, key, and IV.",
        st.dark_mode⟩, fs, none) := by
  have he : ("" : String).isEmpty = true := rfl
  have hb : (st.file_path.isEmpty || st.key.isEmpty || st.iv.isEmpty) = true := by
    rcases h with h | h | h <;> simp [h, he]
  constructor
  · simp only [update]
    rw [if_pos hb]
  · simp only [update]
    rw [if_pos hb]

theorem c9_empty_fields_witness :
    update ⟨"", "k", "i", "Ready", true⟩ emptyFS Msg.encryptFile =
      (⟨"", "k", "i", "Please enter all fields (file path, key, and IV).", true⟩,
        emptyFS, none) ∧
    update ⟨"", "k", "i", "Ready", true⟩ emptyFS Msg.decryptFile =
      (⟨"", "k", "i", "Please enter file path, key, and IV.", true⟩, emptyFS, none) :=
  c9_empty_fields ⟨"", "k", "i", "Ready", true⟩ emptyFS (Or.inl rfl)

/-- C10: whenever the key string contains a non-hexadecimal character, both
encrypt_file and decrypt_file fail with InvalidKeyFormat regardless of the IV
string and the file path (even a nonexistent one): key decoding is checked
before IV decoding, length validation and any file access. -/
theorem c10_key_checked_first (key : String) (fs : FS) (p iv : String)
    (hbad : ∃ c ∈ key.data, ¬ IsHexChar c) :
    encryptFileResult fs p key iv = Except.error "Invalid key format" ∧
    decryptFileResult fs p key iv = Except.error "Invalid key format" := by
  obtain ⟨c, hc, hb⟩ := hbad
  have h : hexDecode key = none := hexPairs_none_of_badchar key.data c hc hb
  exact ⟨encryptFileResult_keyfmt fs p key iv h, decryptFileResult_keyfmt fs p key iv h⟩

theorem c10_key_checked_first_witness :
    encryptFileResult emptyFS "nofile" "zz" "gg" = Except.error "Invalid key format" ∧
    decryptFileResult emptyFS "nofile" "zz" "gg" = Except.error "Invalid key format" :=
  c10_key_checked_first "zz" emptyFS "nofile" "gg" ⟨'z', by decide⟩
